import Mathlib

/-!
Verification of the `shamir_ru_mnemonic` command-line program (`cli.py`)
and of the split/combine pipeline it drives.

The repository ships `cli.py`; the modules it imports (`shamir.py`,
`share.py`, `constants.py`, `utils.py`) are not part of the source tree,
so their behaviour is modelled from the design document (sections 4.4 to
4.8): such definitions carry a doc comment starting with
`Modelled from the spec:`.  Everything taken directly from `cli.py`
follows its control flow line by line.
-/

namespace ShamirRu

/-- Modelled from the spec: the `Share` entity of `share.py` (missing from
the source tree), section 3 of the design document.  `member_threshold` is
the attribute `cli.py` reads as `elem.threshold`; `value` is the byte
sequence of the fragment.  Field bounds (15-bit identifier, 4-bit group
and member fields) are imposed as hypotheses where a theorem needs them. -/
structure Share where
  identifier : ℕ
  iteration_exponent : ℕ
  group_index : ℕ
  group_threshold : ℕ
  group_count : ℕ
  member_index : ℕ
  member_threshold : ℕ
  value : List ℕ
deriving DecidableEq, Inhabited

/-- Modelled from the spec: `Share.common_parameters()` returns the tuple
`(identifier, iteration_exponent, group_threshold, group_count)` that all
shares of one recovery attempt must agree on (section 3, invariants). -/
def Share.commonParameters (s : Share) : ℕ × ℕ × ℕ × ℕ :=
  (s.identifier, s.iteration_exponent, s.group_threshold, s.group_count)

/-- State of the interactive recovery session of `recover` (cli.py lines
158-161): the last parsed share, the ordered list of accepted mnemonic
strings, the `defaultdict` mapping a group index to the set of shares
collected for it (a Python set is modelled as a duplicate-free list in
some iteration order; `next(iter(set))` is the head), and the set of keys
present in the `defaultdict` (reading `groups[idx]` inserts `idx`). -/
structure RecState where
  lastShare : Option Share
  allMnemonics : List String
  groups : ℕ → List Share
  groupKeys : Finset ℕ

/-- The state of `recover` before any prompt. -/
def initState : RecState :=
  { lastShare := none, allMnemonics := [], groups := fun _ => [], groupKeys := ∅ }

/-- Python `set.add`: insert unless an equal element is present. -/
def setAdd (l : List Share) (s : Share) : List Share :=
  if s ∈ l then l else l ++ [s]

/-- `print_status` (cli.py lines 186-195) reads `groups[i]` for every
`i in range(last_share.group_count)`, inserting those keys into the
`defaultdict`.  Only the key set changes; every group's share set is
left as it was. -/
def touchKeys (st : RecState) (gc : ℕ) : RecState :=
  { st with groupKeys := st.groupKeys ∪ Finset.range gc }

/-- What one iteration of the collection loop reports. -/
inductive StepEvent
  | decodeError
  | mismatch
  | accepted
deriving DecidableEq

/-- One iteration of the collection loop of `recover` (cli.py lines
202-223) applied to one prompted mnemonic: decode it (`Share.from_mnemonic`
is the abstract decoder `dec`; a decode failure is caught at line 222 and
leaves the state untouched), set `last_share` on first success (lines
207-208), reject on a common-parameter mismatch (lines 210-211, state
untouched), otherwise accept (lines 213-216); `print_status` then touches
the keys `0 .. group_count - 1` (line 218). -/
def acceptStep (dec : String → Option Share) (st : RecState) (m : String) :
    RecState × StepEvent :=
  match dec m with
  | none => (st, StepEvent.decodeError)
  | some share =>
    let ls := st.lastShare.getD share
    if ls.commonParameters ≠ share.commonParameters then
      (touchKeys { st with lastShare := some ls } ls.group_count, StepEvent.mismatch)
    else
      (touchKeys
        { lastShare := some share,
          allMnemonics := st.allMnemonics ++ [m],
          groups := fun idx =>
            if idx = share.group_index then setAdd (st.groups idx) share else st.groups idx,
          groupKeys := insert share.group_index st.groupKeys }
        share.group_count, StepEvent.accepted)

/-- `group_is_complete` (cli.py lines 180-184): a group is complete iff its
set is non-empty and holds at least `next(iter(group)).threshold` shares. -/
def groupIsComplete (st : RecState) (idx : ℕ) : Bool :=
  match st.groups idx with
  | [] => false
  | e :: rest => decide (e.member_threshold ≤ (e :: rest).length)

/-- The count `n_completed` of cli.py lines 188 and 199: complete groups
among the keys present in the `defaultdict`. -/
def nCompleted (st : RecState) : ℕ :=
  (st.groupKeys.filter (fun idx => groupIsComplete st idx = true)).card

/-- `set_is_complete` (cli.py lines 197-200).  The source asserts
`last_share is not None`; the loop guard only evaluates it then. -/
def setIsComplete (st : RecState) : Bool :=
  match st.lastShare with
  | none => false
  | some ls => decide (ls.group_threshold ≤ nCompleted st)

/-- The `while` guard of cli.py line 202:
`last_share is None or not set_is_complete()`. -/
def continueLoop (st : RecState) : Bool :=
  st.lastShare.isNone || !(setIsComplete st)

/-- Result of running the collection loop over a finite list of prompted
inputs: either the inputs ran out while the loop still wanted more shares,
or the loop fell through to line 238 and `combine_mnemonics` was invoked
on `all_mnemonics`. -/
inductive RunResult
  | outOfInput (st : RecState)
  | combineInvoked (mnems : List String) (st : RecState)

/-- The collection loop of `recover` (cli.py lines 202-223) over a finite
list of prompted inputs.  The guard is evaluated before each prompt; when
it fails the loop exits and `combine_mnemonics(all_mnemonics, ...)` is
invoked (line 238). -/
def runLoop (dec : String → Option Share) (st : RecState) : List String → RunResult
  | [] =>
    if continueLoop st then RunResult.outOfInput st
    else RunResult.combineInvoked st.allMnemonics st
  | m :: ms =>
    if continueLoop st then runLoop dec (acceptStep dec st m).1 ms
    else RunResult.combineInvoked st.allMnemonics st

/-- The common-parameter invariant of a running session: some share has
been accepted, the last accepted share carries the common parameters `c`
of the first one, every share stored in any group set carries `c`, and
every accepted mnemonic string decodes to a share carrying `c`. -/
def SessionInv (dec : String → Option Share) (c : ℕ × ℕ × ℕ × ℕ) (st : RecState) : Prop :=
  (∃ ls, st.lastShare = some ls ∧ ls.commonParameters = c) ∧
  (∀ idx s, s ∈ st.groups idx → s.commonParameters = c) ∧
  (∀ m ∈ st.allMnemonics, ∃ s, dec m = some s ∧ s.commonParameters = c)

/-! ### The `create` command (cli.py lines 46-142) and passphrase encoding -/

/-- The Python exception classes relevant to `passphrase.encode("ascii")`:
encoding a `str` raises `UnicodeEncodeError`; the handlers at cli.py lines
122 and 234 catch `UnicodeDecodeError`. -/
inductive PyExc
  | unicodeEncodeError
  | unicodeDecodeError
deriving DecidableEq

/-- `passphrase.encode("ascii")`: a passphrase is a list of Unicode code
points; encoding succeeds iff every code point is 7-bit, and otherwise
raises `UnicodeEncodeError` (never `UnicodeDecodeError`). -/
def strEncodeAscii (p : List ℕ) : Except PyExc (List ℕ) :=
  if p.all (fun c => decide (c < 128)) then Except.ok p else Except.error PyExc.unicodeEncodeError

/-- Outcome of the passphrase-encoding block of `create`. -/
inductive PassResult
  | bytes (b : List ℕ)
  | clickError (msg : String)
  | uncaught (e : PyExc)
deriving DecidableEq

/-- The passphrase block of `create` (cli.py lines 119-125): an empty (or
absent) passphrase yields `b""`; otherwise `encode("ascii")` runs under a
handler that catches only `UnicodeDecodeError` and converts it to
`ClickException "Passphrase must be ASCII only"`; any other exception
propagates uncaught. -/
def createPassStep (p : List ℕ) : PassResult :=
  if p = [] then PassResult.bytes []
  else
    match strEncodeAscii p with
    | Except.ok b => PassResult.bytes b
    | Except.error PyExc.unicodeDecodeError => PassResult.clickError "Passphrase must be ASCII only"
    | Except.error e => PassResult.uncaught e

/-- Outcome of one iteration of the passphrase prompt of `recover`. -/
inductive PromptResult
  | accept (b : List ℕ)
  | retry
  | uncaught (e : PyExc)
deriving DecidableEq

/-- One iteration of the `while True` passphrase prompt of `recover`
(cli.py lines 227-235): `encode("ascii")` then `break`; the handler
catches only `UnicodeDecodeError` (echoing "Passphrase must be ASCII.
Please try again." and looping); any other exception propagates. -/
def recoverPassIter (p : List ℕ) : PromptResult :=
  match strEncodeAscii p with
  | Except.ok b => PromptResult.accept b
  | Except.error PyExc.unicodeDecodeError => PromptResult.retry
  | Except.error e => PromptResult.uncaught e

/-- Result of the `create` command, up to the call of
`generate_mnemonics` (the mnemonic generation itself lives in the missing
`shamir.py` and is verified separately as `generate`/`combineSelected`
below).  `ok` records the master secret handed to `generate_mnemonics`;
every other constructor is an exit before any secret is used. -/
inductive CreateResult
  | clickException (msg : String)
  | badUsage (msg : String)
  | disallowedGroup
  | uncaughtException (e : PyExc)
  | ok (secret : List ℕ)
deriving DecidableEq

/-- Process exit status of each `create` outcome: `ClickException` exits
with 1, `UsageError`/`BadArgumentUsage`/`BadOptionUsage` with 2, the
1-of-X rejection calls `sys.exit(1)`, an uncaught exception exits 1. -/
def createExitCode : CreateResult → ℕ
  | CreateResult.ok _ => 0
  | CreateResult.clickException _ => 1
  | CreateResult.badUsage _ => 2
  | CreateResult.disallowedGroup => 1
  | CreateResult.uncaughtException _ => 1

/-- The message of cli.py line 70. -/
def MSG_PASS_NEEDS_MASTER : String :=
  "Используйте кодовую фразу только вместе с явным главным секретом"

/-- Python `scheme.split("of", maxsplit=1)` when `"of" in scheme`:
the text before the first occurrence of `of` and the text after it. -/
def splitAtOf : List Char → Option (List Char × List Char)
  | [] => none
  | 'o' :: 'f' :: rest => some ([], rest)
  | c :: rest => (splitAtOf rest).map (fun p => (c :: p.1, p.2))

/-- Python `int(...)` on a non-empty string of decimal digits. -/
def parseNatChars (l : List Char) : Option ℕ :=
  if l = [] then none
  else
    l.foldl
      (fun acc c =>
        acc.bind (fun a =>
          if '0' ≤ c ∧ c ≤ '9' then some (a * 10 + (c.toNat - 48)) else none))
      (some 0)

/-- Python `int(...)` including a leading minus sign. -/
def parseIntChars : List Char → Option ℤ
  | '-' :: rest => (parseNatChars rest).map (fun n => -(n : ℤ))
  | l => (parseNatChars l).map (fun n => (n : ℤ))

/-- The scheme-resolution chain of `create` (cli.py lines 76-99): `single`,
`master`, a `MofN` literal (parsed with `int`, any failure becoming
`BadArgumentUsage`), `custom` (requiring `-t` and at least one `-g`), and
otherwise `ClickException "Unknown scheme: ..."`. -/
def resolveScheme (scheme : String) (groupsOpt : List (ℤ × ℤ)) (thresholdOpt : Option ℤ) :
    Except CreateResult (ℤ × List (ℤ × ℤ)) :=
  if scheme = "single" then Except.ok (1, [(1, 1)])
  else if scheme = "master" then Except.ok (1, [(1, 1), (3, 5)])
  else
    match splitAtOf scheme.data with
    | some (mc, nc) =>
      match parseIntChars mc, parseIntChars nc with
      | some m, some n => Except.ok (1, [(m, n)])
      | _, _ => Except.error (CreateResult.badUsage ("Invalid scheme: " ++ scheme))
    | none =>
      if scheme = "custom" then
        match thresholdOpt with
        | none =>
          Except.error (CreateResult.badUsage
            "Используйте -t для определения к-во групп для восстановления")
        | some t =>
          if groupsOpt = [] then
            Except.error (CreateResult.badUsage
              "Используйте -g T N чтобы добавить T-of-N группу в коллекцию")
          else Except.ok (t, groupsOpt)
      else Except.error (CreateResult.clickException ("Unknown scheme: " ++ scheme))

/-- Python `bytes.fromhex` on a list of characters (strict pairs of hex
digits). -/
def hexVal (c : Char) : Option ℕ :=
  if '0' ≤ c ∧ c ≤ '9' then some (c.toNat - 48)
  else if 'a' ≤ c ∧ c ≤ 'f' then some (c.toNat - 87)
  else if 'A' ≤ c ∧ c ≤ 'F' then some (c.toNat - 55)
  else none

/-- Decode a hex string to bytes, failing on odd length or a bad digit. -/
def hexDecode : List Char → Option (List ℕ)
  | [] => some []
  | [_] => none
  | a :: b :: rest =>
    match hexVal a, hexVal b, hexDecode rest with
    | some x, some y, some tl => some ((16 * x + y) :: tl)
    | _, _, _ => none

/-- The `create` command (cli.py lines 46-129) up to the call of
`generate_mnemonics`, in source order: the passphrase-needs-master check
(line 68 — Python truthiness: `not master_secret` holds both for `None`
and for an explicitly supplied empty string, while line 106 tests
`is not None`), the `-g`/`-t`-require-custom check (line 73), scheme
resolution (lines 76-99), the 1-of-X rejection (lines 101-104),
master-secret hex decoding or random generation (lines 106-114, the
random bytes supplied by `rng`), and the passphrase-encoding block
(lines 119-125). -/
def createRun (scheme : String) (groupsOpt : List (ℤ × ℤ)) (thresholdOpt : Option ℤ)
    (masterSecret : Option String) (passphrase : List ℕ) (strength : ℕ)
    (rng : ℕ → List ℕ) : CreateResult :=
  if passphrase ≠ [] ∧ (masterSecret = none ∨ masterSecret = some "") then
    CreateResult.clickException MSG_PASS_NEEDS_MASTER
  else if (groupsOpt ≠ [] ∨ thresholdOpt ≠ none) ∧ scheme ≠ "custom" then
    CreateResult.badUsage "Для использования -g/-t, вам нужно выбрать custom схему."
  else
    match resolveScheme scheme groupsOpt thresholdOpt with
    | Except.error r => r
    | Except.ok (_, gs) =>
      if gs.any (fun p => decide (p.1 = 1 ∧ 1 < p.2)) then CreateResult.disallowedGroup
      else
        match
          (match masterSecret with
           | some h =>
             match hexDecode h.data with
             | some b => Except.ok b
             | none => Except.error (CreateResult.badUsage "Secret bytes must be hex encoded")
           | none => Except.ok (rng (strength / 8))) with
        | Except.error r => r
        | Except.ok secretBytes =>
          match createPassStep passphrase with
          | PassResult.bytes _ => CreateResult.ok secretBytes
          | PassResult.clickError msg => CreateResult.clickException msg
          | PassResult.uncaught e => CreateResult.uncaughtException e

/-! ### The tail of `recover` (cli.py lines 237-244) -/

/-- A nibble as a lowercase hex character, as `bytes.hex()` prints it. -/
def hexChar (n : ℕ) : Char :=
  if n < 10 then Char.ofNat (48 + n) else Char.ofNat (87 + n)

/-- `bytes.hex()`. -/
def hexEncode (l : List ℕ) : String :=
  String.mk (l.foldr (fun b acc => hexChar (b / 16) :: hexChar (b % 16) :: acc) [])

/-- The tail of `recover` (cli.py lines 237-244) applied to the outcome of
`combine_mnemonics`: on `MnemonicError` it prints the error and
"Recovery failed" and exits 1; on success it prints "SUCCESS!" and the
recovered secret and returns normally (exit 0).  The result is the list
of printed lines paired with the exit status. -/
def finishRecover (res : Except String (List ℕ)) : List String × ℕ :=
  match res with
  | Except.error e => (["ERROR: " ++ e, "Recovery failed"], 1)
  | Except.ok s => (["SUCCESS!", "Your master secret is: " ++ hexEncode s], 0)

/-! ### Share word encoding and the group prefix (cli.py lines 163-166) -/

/-- Modelled from the spec: the header bit-packing of `Share.words()`
(section 4.6 of the design document; `share.py` is missing from the
source tree): `identifier` (15 bits), `iteration_exponent` (5 bits),
`group_index` (4 bits), `group_threshold - 1` (4 bits),
`group_count - 1` (4 bits), `member_index` (4 bits),
`member_threshold - 1` (4 bits) — 40 bits in total. -/
def headerValue (s : Share) : ℕ :=
  (((((s.identifier * 2 ^ 5 + s.iteration_exponent) * 2 ^ 4 + s.group_index) * 2 ^ 4 +
        (s.group_threshold - 1)) * 2 ^ 4 +
      (s.group_count - 1)) * 2 ^ 4 +
    s.member_index) * 2 ^ 4 +
  (s.member_threshold - 1)

/-- Modelled from the spec: slice an unsigned integer into `nwords`
10-bit symbols, most significant first (section 4.3 of the design
document). -/
def wordsFromValue (nwords v : ℕ) : List ℕ :=
  (List.range nwords).map (fun i => v / 2 ^ (10 * (nwords - 1 - i)) % 1024)

/-- The share value bytes as one big-endian unsigned integer. -/
def valueInt (s : Share) : ℕ :=
  s.value.foldl (fun a b => a * 256 + b) 0

/-- Modelled from the spec: `Share.words()` as a list of 10-bit symbol
indices (the localized 1024-word vocabulary is an external static
resource, abstracted as the map `w` applied at display time): the 4
header words, the value words (the value zero-padded to a whole number
of 10-bit symbols), and the 3 checksum words.  The checksum generator
constants live in the missing `share.py`, so the checksum is abstracted
as a function `cks` of the preceding symbols. -/
def shareWordSyms (cks : List ℕ → List ℕ) (s : Share) : List ℕ :=
  let body := wordsFromValue 4 (headerValue s) ++
    wordsFromValue ((8 * s.value.length + 9) / 10) (valueInt s)
  body ++ cks body

/-- Modelled from the spec: `GROUP_PREFIX_LENGTH_WORDS` from the missing
`constants.py`.  Section 4.6 of the design document describes the group
fingerprint as the words fully determined by `identifier,
iteration_exponent, group_index, group_threshold, group_count`,
"(20+10 ≈ 4 words)": those are the 30 leading bits, i.e. 3 words (the
fourth word already mixes in `member_index` and `member_threshold`). -/
def GROUP_PREFIX_LENGTH_WORDS : ℕ := 3

/-- `make_group_prefix` (cli.py lines 163-166): re-encode `last_share`
with the given group index (`attr.evolve`) and join the first
`GROUP_PREFIX_LENGTH_WORDS` words with spaces; `w` maps a 10-bit symbol
to its vocabulary word. -/
def makeGroupPrefixStr (w : ℕ → String) (cks : List ℕ → List ℕ) (last : Share) (idx : ℕ) :
    String :=
  " ".intercalate
    (((shareWordSyms cks { last with group_index := idx }).take GROUP_PREFIX_LENGTH_WORDS).map w)

/-! ### Concrete fixtures used by counterexamples and witnesses -/

/-- A share with member index 0; common parameters `(7, 0, 1, 1)`. -/
def cexS1 : Share :=
  { identifier := 7, iteration_exponent := 0, group_index := 0, group_threshold := 1,
    group_count := 1, member_index := 0, member_threshold := 2, value := [1, 2] }

/-- A share differing from `cexS1` only in `member_index`; the same
common parameters. -/
def cexS2 : Share :=
  { identifier := 7, iteration_exponent := 0, group_index := 0, group_threshold := 1,
    group_count := 1, member_index := 1, member_threshold := 2, value := [3, 4] }

/-- A share whose common parameters differ from `cexS1` (identifier 8). -/
def cexS3 : Share :=
  { identifier := 8, iteration_exponent := 0, group_index := 0, group_threshold := 1,
    group_count := 1, member_index := 0, member_threshold := 2, value := [5, 6] }

/-- A concrete decoder: "a" and "b" are the mnemonics of `cexS1` and
`cexS2`, "c" is a mnemonic from a different split (`cexS3`), anything
else fails to decode. -/
def cexDec (m : String) : Option Share :=
  if m = "a" then some cexS1 else if m = "b" then some cexS2
  else if m = "c" then some cexS3 else none

/-- The session state after accepting "a" then "b" from the initial
state. -/
def cexSt : RecState :=
  (acceptStep cexDec (acceptStep cexDec initState "a").1 "b").1

/-! ### The Shamir engine and the passphrase cipher (spec sections 4.4, 4.5, 4.7)

The engine of the missing `shamir.py` works per byte position over
GF(256).  It is modelled over an arbitrary decidable field `F` together
with an embedding `ι` of the byte indices `0..255` into `F` (injective on
that range by hypothesis); GF(256), where `ι` is the identity on bytes,
is an instance, and so is any prime field of at least 256 elements, which
the witnesses use so that every definition stays executable. -/

section Engine

variable {F : Type} [Field F] [DecidableEq F]

/-- Modelled from the spec: Lagrange interpolation at `x` through the `t`
points `(xs i, ys i)` (section 4.4: "interpolation/evaluation is performed
per byte position using Lagrange's formula"). -/
def interp (t : ℕ) (xs ys : Fin t → F) (x : F) : F :=
  ∑ i, ys i * ∏ j ∈ Finset.univ.erase i, (x - xs j) / (xs i - xs j)

/-- Modelled from the spec: the x-coordinates of the interpolation basis
of a `t`-threshold split (section 4.4): the `t - 2` random fragments sit
at indices `0 .. t-3`, the digest fragment at index 254 and the secret at
index 255. -/
def basisX (ι : ℕ → F) (t : ℕ) : Fin t → F := fun i =>
  if i.1 < t - 2 then ι i.1 else if i.1 = t - 2 then ι 254 else ι 255

/-- Modelled from the spec: the y-coordinates (one byte position) matching
`basisX`: the random bytes, the digest byte and the secret byte. -/
def basisY (t : ℕ) (secret dgst : F) (rnd : ℕ → F) : Fin t → F := fun i =>
  if i.1 < t - 2 then rnd i.1 else if i.1 = t - 2 then dgst else secret

/-- Modelled from the spec: one byte position of the fragment at member
index `k` produced by `split(threshold = t, ...)` (section 4.4): with
`t = 1` every fragment equals the secret verbatim; otherwise the first
`t - 2` fragments are the random basis fragments and every other index
evaluates the unique interpolation polynomial of the basis. -/
def shareValueAt (ι : ℕ → F) (t : ℕ) (secret dgst : F) (rnd : ℕ → F) (k : ℕ) : F :=
  if t = 1 then secret
  else if k < t - 2 then rnd k
  else interp t (basisX ι t) (basisY t secret dgst rnd) (ι k)

/-- Modelled from the spec: the whole fragment at member index `k` of the
`t`-threshold split of the length-`L` byte string `secret`, with digest
fragment value `dgstv` (the digest concatenated with its salt) and random
fragments `rnd`, each byte position split independently (section 4.4). -/
def splitValue (ι : ℕ → F) (t L : ℕ) (secret : List F) (dgstv : List F)
    (rnd : ℕ → List F) (k : ℕ) : List F :=
  (List.range L).map fun c =>
    shareValueAt ι t (secret.getD c 0) (dgstv.getD c 0) (fun i => (rnd i).getD c 0) k

/-- Modelled from the spec: `recombine` (section 4.4) on `t` fragments
`pts` (member index paired with value, all indices distinct): with
`t = 1` the single fragment's value is the secret verbatim; otherwise
interpolate every byte position at index 255 for the secret and at index
254 for the digest fragment, then check that the first 4 digest bytes
equal `dgF secret salt` where `salt` is the rest, failing with
`DigestMismatch` otherwise. -/
def recombineValue (ι : ℕ → F) (dgF : List F → List F → List F) (t L : ℕ)
    (pts : Fin t → ℕ × List F) : Except String (List F) :=
  if h : t = 1 then Except.ok (pts ⟨0, by omega⟩).2
  else
    let nodes : Fin t → F := fun i => ι (pts i).1
    let sec := (List.range L).map fun c => interp t nodes (fun i => (pts i).2.getD c 0) (ι 255)
    let dgv := (List.range L).map fun c => interp t nodes (fun i => (pts i).2.getD c 0) (ι 254)
    if dgv.take 4 = dgF sec (dgv.drop 4) then Except.ok sec
    else Except.error "Invalid digest of the shared secret."

/-- Byte-wise xor of two byte strings (Python `zip` truncates to the
shorter operand). -/
def xorBytes (a b : List ℕ) : List ℕ := List.zipWith (fun x y => x ^^^ y) a b

/-- Modelled from the spec: the Feistel rounds of the passphrase cipher
(section 4.5) over the listed round indices; each round maps
`(l, r)` to `(r, l xor rf i r)`.  The round function `rf` abstracts
`F(round, passphrase, salt, half)` with the passphrase, identifier salt
and iteration count baked in. -/
def feistelRounds (rf : ℕ → List ℕ → List ℕ) : List ℕ → List ℕ × List ℕ → List ℕ × List ℕ
  | [], s => s
  | i :: is, (l, r) => feistelRounds rf is (r, xorBytes l (rf i r))

/-- Modelled from the spec: encryption (section 4.5): split the secret in
half, run rounds 0,1,2,3 forward, return `r ++ l`. -/
def feistelEncrypt (rf : ℕ → List ℕ → List ℕ) (s : List ℕ) : List ℕ :=
  let h := s.length / 2
  let p := feistelRounds rf [0, 1, 2, 3] (s.take h, s.drop h)
  p.2 ++ p.1

/-- Modelled from the spec: decryption (section 4.5): the same rounds in
reverse order 3,2,1,0, with the same swap. -/
def feistelDecrypt (rf : ℕ → List ℕ → List ℕ) (s : List ℕ) : List ℕ :=
  let h := s.length / 2
  let p := feistelRounds rf [3, 2, 1, 0] (s.take h, s.drop h)
  p.2 ++ p.1

/-- Modelled from the spec: `generate` of the orchestrator (section 4.7):
encrypt the secret with the passphrase cipher, split the encrypted secret
into `groups.length` group fragments with threshold `gt` (digest salt
`gsalt`, random fragments `grnd`), then split group `j`'s fragment into
`member_count j` member fragments with threshold `member_threshold j`
(digest salt `msalt j`, random fragments `mrnd j`).  The result is the
list of groups, each the list of its member fragment values (the word
encoding of section 4.6 is the faithful transport verified separately by
the prefix theorems). -/
def generate (ι : ℕ → F) (dgF : List F → List F → List F) (rf : ℕ → List ℕ → List ℕ)
    (gt : ℕ) (groups : List (ℕ × ℕ)) (secret : List ℕ) (gsalt : List F) (grnd : ℕ → List F)
    (msalt : ℕ → List F) (mrnd : ℕ → ℕ → List F) : List (List (List F)) :=
  let ems : List F := (feistelEncrypt rf secret).map ι
  let L := secret.length
  (List.range groups.length).map fun j =>
    let gfrag := splitValue ι gt L ems (dgF ems gsalt ++ gsalt) grnd j
    (List.range (groups.getD j (1, 1)).2).map fun k =>
      splitValue ι (groups.getD j (1, 1)).1 L gfrag (dgF gfrag (msalt j) ++ msalt j) (mrnd j) k

/-- The member-level recombination (section 4.7, step 3) of the selected
group `i`: the `member_threshold` member fragments picked by `msel i`
from group `gsel i`. -/
def selectedGroupValue (ι : ℕ → F) (dgF : List F → List F → List F) (L : ℕ)
    (groups : List (ℕ × ℕ)) (shareVal : ℕ → ℕ → List F) (gt : ℕ) (gsel : Fin gt → ℕ)
    (msel : (i : Fin gt) → Fin (groups.getD (gsel i) (1, 1)).1 → ℕ) (i : Fin gt) :
    Except String (List F) :=
  recombineValue ι dgF (groups.getD (gsel i) (1, 1)).1 L
    (fun k => (msel i k, shareVal (gsel i) (msel i k)))

/-- Modelled from the spec: `combine` of the orchestrator (section 4.7)
on a sufficient subset: exactly `member_threshold` shares (picked by
`msel i`) from each of exactly `gt` groups (picked by `gsel`).  Each
selected group is recombined to its group fragment; if any group fails
(or is missing) the combine fails; the group fragments are recombined
with threshold `gt` to the encrypted master secret, which is mapped back
to bytes (`ιi`, the inverse of the byte embedding) and decrypted with the
passphrase cipher. -/
def combineSelected (ι : ℕ → F) (ιi : F → ℕ) (dgF : List F → List F → List F)
    (rf : ℕ → List ℕ → List ℕ) (gt L : ℕ) (groups : List (ℕ × ℕ)) (shareVal : ℕ → ℕ → List F)
    (gsel : Fin gt → ℕ) (msel : (i : Fin gt) → Fin (groups.getD (gsel i) (1, 1)).1 → ℕ) :
    Except String (List ℕ) :=
  if _h : ∀ i : Fin gt, (selectedGroupValue ι dgF L groups shareVal gt gsel msel i).isOk = true then
    (recombineValue ι dgF gt L
        (fun i => (gsel i, (selectedGroupValue ι dgF L groups shareVal gt gsel msel i).toOption.getD []))).map
      (fun ems => feistelDecrypt rf (ems.map ιi))
  else Except.error "Insufficient number of mnemonic groups."

end Engine

/-- The byte field of the witnesses: the prime field with 257 elements,
in which the byte indices 0..255 embed injectively via the natural cast. -/
instance : Fact (Nat.Prime 257) := ⟨by norm_num⟩

/-! ### Theorems -/

/-- Two strings whose head characters differ are different. -/
theorem string_head_ne {a b : String} (h : a.data.head? ≠ b.data.head?) : a ≠ b :=
  fun he => h (by rw [he])

/-- The handler of cli.py lines 122-123 is dead code: the passphrase block
of `create` can never produce the handled `ClickException`, because
`str.encode` raises `UnicodeEncodeError` and the handler catches
`UnicodeDecodeError`. -/
theorem createPassStep_no_click (p : List ℕ) (m : String) :
    createPassStep p ≠ PassResult.clickError m := by
  unfold createPassStep strEncodeAscii
  split
  · simp
  · split
    · simp
    · rename_i heq
      split at heq <;> simp at heq
    · simp

/-- The retry branch of the `recover` passphrase prompt (cli.py lines
234-235) is dead code for the same reason. -/
theorem recoverPassIter_no_retry (p : List ℕ) : recoverPassIter p ≠ PromptResult.retry := by
  unfold recoverPassIter strEncodeAscii
  split
  · simp
  · rename_i heq
    split at heq <;> simp at heq
  · simp

/-- C2: a passphrase containing a character outside 7-bit ASCII (such as
code point 1099, `ы`) makes both the `create` passphrase block and the
`recover` passphrase prompt propagate an uncaught `UnicodeEncodeError`
instead of the handled "Passphrase must be ASCII" report: the handlers
catch `UnicodeDecodeError`, which `str.encode("ascii")` never raises, so
the handled branches are unreachable for every passphrase. -/
theorem passphrase_nonascii_uncaught :
    createPassStep [1099] = PassResult.uncaught PyExc.unicodeEncodeError ∧
    recoverPassIter [1099] = PromptResult.uncaught PyExc.unicodeEncodeError ∧
    (∀ p m, createPassStep p ≠ PassResult.clickError m) ∧
    (∀ p, recoverPassIter p ≠ PromptResult.retry) :=
  ⟨by decide, by decide, createPassStep_no_click, recoverPassIter_no_retry⟩

/-- C8: when `combine_mnemonics` fails with a `MnemonicError`, `recover`
prints the error and "Recovery failed" and exits with status 1 (never
printing the success message); when it returns normally, it prints
"SUCCESS!" and the recovered secret and exits with status 0. -/
theorem recover_combine_failure_reported :
    (∀ e, finishRecover (Except.error e) = (["ERROR: " ++ e, "Recovery failed"], 1) ∧
      (finishRecover (Except.error e)).2 ≠ 0 ∧
      "SUCCESS!" ∉ (finishRecover (Except.error e)).1) ∧
    ∀ s, finishRecover (Except.ok s) =
      (["SUCCESS!", "Your master secret is: " ++ hexEncode s], 0) := by
  refine ⟨fun e => ⟨rfl, by simp [finishRecover], ?_⟩, fun s => rfl⟩
  intro hmem
  simp only [finishRecover, List.mem_cons, List.not_mem_nil, or_false] at hmem
  rcases hmem with h | h
  · have h2 : ("SUCCESS!" : String).data.head? = ("ERROR: " ++ e).data.head? := by rw [h]
    rw [String.data_append] at h2
    have h3 : some 'S' = some 'E' := h2
    exact absurd (Option.some.inj h3) (by decide)
  · exact absurd h (by decide)

/-- Scheme resolution never fails with the passphrase-needs-master
message: its failures are the usage errors of cli.py lines 88-97 and the
unknown-scheme `ClickException` of line 99. -/
theorem resolveScheme_no_pass_msg (scheme : String) (g : List (ℤ × ℤ)) (t : Option ℤ)
    (r : CreateResult) (h : resolveScheme scheme g t = Except.error r) :
    r ≠ CreateResult.clickException MSG_PASS_NEEDS_MASTER := by
  unfold resolveScheme at h
  split at h
  · exact absurd h (by simp)
  · split at h
    · exact absurd h (by simp)
    · split at h
      · split at h
        · exact absurd h (by simp)
        · simp only [Except.error.injEq] at h
          subst h
          simp
      · split at h
        · split at h
          · simp only [Except.error.injEq] at h
            subst h
            simp
          · split at h
            · simp only [Except.error.injEq] at h
              subst h
              simp
            · exact absurd h (by simp)
        · simp only [Except.error.injEq] at h
          subst h
          simp only [ne_eq, CreateResult.clickException.injEq]
          intro hstr
          have h2 : ("Unknown scheme: " ++ scheme : String).data.head? =
              (MSG_PASS_NEEDS_MASTER : String).data.head? := by rw [hstr]
          rw [String.data_append] at h2
          have h3 : some 'U' = some 'И' := h2
          exact absurd (Option.some.inj h3) (by decide)

/-- C10 counterexample: an explicitly supplied master secret does not
always avoid the passphrase-needs-master failure — with `-S ''` (the
explicit empty hex string) and a non-empty passphrase, cli.py line 68's
truthiness test `not master_secret` still fires, so the command fails
with that very `ClickException`, refuting the claim's "an explicit
master secret ... never triggers this failure" at this input. -/
theorem create_explicit_empty_master_fails :
    createRun "single" [] none (some "") [49] 128 (fun n => List.replicate n 0) =
      CreateResult.clickException MSG_PASS_NEEDS_MASTER := by decide

/-- C10 (amended): `create` with a non-empty passphrase and no usable
master secret — none supplied, or the explicitly empty string, both
falsy to cli.py line 68 — fails at once with the passphrase-needs-master
`ClickException`, before any random secret or mnemonic is produced; a
non-empty explicit master secret, or an empty passphrase, never triggers
that failure. -/
theorem create_passphrase_requires_nonempty_master (scheme : String)
    (groupsOpt : List (ℤ × ℤ)) (thresholdOpt : Option ℤ) (ms : Option String)
    (p : List ℕ) (strength : ℕ) (rng : ℕ → List ℕ) :
    (p ≠ [] ∧ (ms = none ∨ ms = some "") →
      createRun scheme groupsOpt thresholdOpt ms p strength rng =
        CreateResult.clickException MSG_PASS_NEEDS_MASTER) ∧
    ((∃ s, ms = some s ∧ s ≠ "") ∨ p = [] →
      createRun scheme groupsOpt thresholdOpt ms p strength rng ≠
        CreateResult.clickException MSG_PASS_NEEDS_MASTER) := by
  constructor
  · intro h
    simp only [createRun, if_pos h]
  · intro h
    have hfirst : ¬(p ≠ [] ∧ (ms = none ∨ ms = some "")) := by
      rcases h with ⟨s, hms, hs⟩ | h
      · rintro ⟨-, hnone | hempty⟩
        · rw [hms] at hnone
          exact absurd hnone (by simp)
        · rw [hms] at hempty
          rw [Option.some.injEq] at hempty
          exact hs hempty
      · exact fun hc => hc.1 h
    unfold createRun
    rw [if_neg hfirst]
    split
    · simp
    · split
      · rename_i r heq
        exact resolveScheme_no_pass_msg scheme groupsOpt thresholdOpt r heq
      · split
        · simp
        · split
          · rename_i r heq
            split at heq
            · split at heq
              · exact absurd heq (by simp)
              · simp only [Except.error.injEq] at heq
                subst heq
                simp
            · exact absurd heq (by simp)
          · split
            · simp
            · rename_i m heq
              exact absurd heq (createPassStep_no_click p m)
            · simp

/-- C7: whenever the resolved group list of `create` contains a group
`(1, n)` with `n > 1`, the command stops before any secret is generated
(the result does not depend on the random source and carries no secret),
with a non-zero exit status, and produces no mnemonics (cli.py lines
101-104 run before the secret handling of lines 106-129). -/
theorem create_one_of_many_rejected (scheme : String) (groupsOpt : List (ℤ × ℤ))
    (thresholdOpt : Option ℤ) (ms : Option String) (p : List ℕ) (strength : ℕ)
    (t : ℤ) (gs : List (ℤ × ℤ)) (mn : ℤ × ℤ)
    (hres : resolveScheme scheme groupsOpt thresholdOpt = Except.ok (t, gs))
    (hmem : mn ∈ gs) (hm : mn.1 = 1) (hn : 1 < mn.2) :
    ∀ rng rng2 : ℕ → List ℕ,
      createRun scheme groupsOpt thresholdOpt ms p strength rng =
        createRun scheme groupsOpt thresholdOpt ms p strength rng2 ∧
      createExitCode (createRun scheme groupsOpt thresholdOpt ms p strength rng) ≠ 0 ∧
      ∀ s, createRun scheme groupsOpt thresholdOpt ms p strength rng ≠ CreateResult.ok s := by
  intro rng rng2
  have hany : gs.any (fun q => decide (q.1 = 1 ∧ 1 < q.2)) = true :=
    List.any_eq_true.2 ⟨mn, hmem, by simp [hm, hn]⟩
  unfold createRun
  split
  · exact ⟨rfl, by simp [createExitCode], by simp⟩
  · split
    · exact ⟨rfl, by simp [createExitCode], by simp⟩
    · rw [hres]
      simp only [hany]
      simp [createExitCode]

/-- Witness for the amended C10 at concrete inputs: `create single
-p <1 char>` fails with the passphrase-needs-master message both with no
master secret and with the explicit empty one, while the same call with
`-S 00` does not. -/
theorem create_passphrase_requires_nonempty_master_witness :
    createRun "single" [] none none [49] 128 (fun n => List.replicate n 0) =
      CreateResult.clickException MSG_PASS_NEEDS_MASTER ∧
    createRun "single" [] none (some "") [49] 128 (fun n => List.replicate n 0) =
      CreateResult.clickException MSG_PASS_NEEDS_MASTER ∧
    createRun "single" [] none (some "00") [49] 128 (fun n => List.replicate n 0) ≠
      CreateResult.clickException MSG_PASS_NEEDS_MASTER :=
  ⟨(create_passphrase_requires_nonempty_master "single" [] none none [49] 128
      (fun n => List.replicate n 0)).1 ⟨by decide, Or.inl rfl⟩,
   (create_passphrase_requires_nonempty_master "single" [] none (some "") [49] 128
      (fun n => List.replicate n 0)).1 ⟨by decide, Or.inr rfl⟩,
   (create_passphrase_requires_nonempty_master "single" [] none (some "00") [49] 128
      (fun n => List.replicate n 0)).2 (Or.inl ⟨"00", rfl, by decide⟩)⟩

/-- Witness for C7 at the concrete scheme `1of3`: the resolution yields
the group list `[(1, 3)]` and the command is rejected independently of
the random source, with a non-zero status and no secret. -/
theorem create_one_of_many_rejected_witness :
    resolveScheme "1of3" [] none = Except.ok (1, [((1 : ℤ), (3 : ℤ))]) ∧
    (createRun "1of3" [] none none [] 128 (fun n => List.replicate n 0) =
       createRun "1of3" [] none none [] 128 (fun n => List.replicate n 1) ∧
     createExitCode (createRun "1of3" [] none none [] 128 (fun n => List.replicate n 0)) ≠ 0 ∧
     ∀ s, createRun "1of3" [] none none [] 128 (fun n => List.replicate n 0) ≠
       CreateResult.ok s) :=
  ⟨rfl,
   create_one_of_many_rejected "1of3" [] none none [] 128 1 [((1 : ℤ), (3 : ℤ))]
     ((1 : ℤ), (3 : ℤ)) rfl (by decide) rfl (by decide)
     (fun n => List.replicate n 0) (fun n => List.replicate n 1)⟩

/-- Membership after a Python `set.add`. -/
theorem mem_setAdd {l : List Share} {s x : Share} (h : x ∈ setAdd l s) : x ∈ l ∨ x = s := by
  unfold setAdd at h
  split at h
  · exact Or.inl h
  · rcases List.mem_append.mp h with h | h
    · exact Or.inl h
    · exact Or.inr (List.mem_singleton.mp h)

/-- While the guard still asks for more shares, the loop consumes the
next prompted input. -/
theorem runLoop_cons_of_continue (dec : String → Option Share) (st : RecState)
    (m : String) (ms : List String) (hc : continueLoop st = true) :
    runLoop dec st (m :: ms) = runLoop dec (acceptStep dec st m).1 ms := by
  conv_lhs => rw [runLoop]
  rw [if_pos hc]

/-- C4: with at least one accepted share, a decoded share whose common
parameters differ from the session's is rejected (cli.py lines 210-211):
no group set changes, the accepted-mnemonic list and `last_share` are
untouched, the event is the error report, and the loop goes on prompting;
moreover once `print_status` has already touched the group keys (as it
has after the first accepted share), the state is unchanged entirely. -/
theorem recover_mismatch_rejected (dec : String → Option Share) (st : RecState)
    (m : String) (ms : List String) (ls sh : Share)
    (hlast : st.lastShare = some ls) (hdec : dec m = some sh)
    (hne : ls.commonParameters ≠ sh.commonParameters) :
    (∀ idx, (acceptStep dec st m).1.groups idx = st.groups idx) ∧
    (acceptStep dec st m).1.allMnemonics = st.allMnemonics ∧
    (acceptStep dec st m).1.lastShare = st.lastShare ∧
    (acceptStep dec st m).2 = StepEvent.mismatch ∧
    (continueLoop st = true → runLoop dec st (m :: ms) = runLoop dec (acceptStep dec st m).1 ms) ∧
    (Finset.range ls.group_count ⊆ st.groupKeys → acceptStep dec st m = (st, StepEvent.mismatch)) := by
  have hred : acceptStep dec st m =
      (touchKeys { st with lastShare := some ls } ls.group_count, StepEvent.mismatch) := by
    unfold acceptStep
    rw [hdec]
    simp only [hlast, Option.getD_some]
    rw [if_pos hne]
  have hupd : { st with lastShare := some ls } = st := by
    cases st with
    | mk a b c d =>
      simp only at hlast
      rw [hlast]
  have hstep1 : (acceptStep dec st m).1 = touchKeys st ls.group_count := by
    rw [hred, hupd]
  refine ⟨fun idx => by rw [hstep1]; rfl, by rw [hstep1]; rfl, by rw [hstep1]; rfl,
    by rw [hred], fun hc => runLoop_cons_of_continue dec st m ms hc, fun hkeys => ?_⟩
  rw [hred, hupd]
  unfold touchKeys
  rw [Finset.union_eq_left.mpr hkeys]

/-- Witness for C4 at a concrete session: after accepting "a" and "b",
the mnemonic "c" (from a different split) is rejected without any state
change. -/
theorem recover_mismatch_rejected_witness :
    cexSt.lastShare = some cexS2 ∧ cexDec "c" = some cexS3 ∧
    cexS2.commonParameters ≠ cexS3.commonParameters ∧
    ((∀ idx, (acceptStep cexDec cexSt "c").1.groups idx = cexSt.groups idx) ∧
     (acceptStep cexDec cexSt "c").1.allMnemonics = cexSt.allMnemonics ∧
     (acceptStep cexDec cexSt "c").1.lastShare = cexSt.lastShare ∧
     (acceptStep cexDec cexSt "c").2 = StepEvent.mismatch ∧
     (continueLoop cexSt = true →
       runLoop cexDec cexSt ["c"] = runLoop cexDec (acceptStep cexDec cexSt "c").1 []) ∧
     (Finset.range cexS2.group_count ⊆ cexSt.groupKeys →
       acceptStep cexDec cexSt "c" = (cexSt, StepEvent.mismatch))) :=
  ⟨by decide, by decide, by decide,
   recover_mismatch_rejected cexDec cexSt "c" [] cexS2 cexS3 (by decide) (by decide) (by decide)⟩

/-- C3 counterexample: re-accepting the already-accepted mnemonic "a" in
the concrete session `cexSt` is not a no-op — the accepted-mnemonic list
gains a duplicate entry and `last_share` is re-pointed, so the claimed
conjunction fails at this input. -/
theorem recover_duplicate_changes_state :
    ¬ ((acceptStep cexDec cexSt "a").1.allMnemonics = cexSt.allMnemonics ∧
       (acceptStep cexDec cexSt "a").1.lastShare = cexSt.lastShare) := by decide

/-- C3 (amended): re-accepting a mnemonic whose share is already in its
group set leaves every group share-set unchanged (the Python set dedupes),
but appends the mnemonic string to `all_mnemonics` again — so the later
`combine_mnemonics` call receives a duplicate — and re-points
`last_share` at the re-accepted share. -/
theorem recover_duplicate_effect (dec : String → Option Share) (st : RecState)
    (m : String) (sh ls : Share)
    (hdec : dec m = some sh) (hlast : st.lastShare = some ls)
    (hcp : ls.commonParameters = sh.commonParameters)
    (hmem : sh ∈ st.groups sh.group_index) :
    (∀ idx, (acceptStep dec st m).1.groups idx = st.groups idx) ∧
    (acceptStep dec st m).1.allMnemonics = st.allMnemonics ++ [m] ∧
    (acceptStep dec st m).1.lastShare = some sh ∧
    (acceptStep dec st m).2 = StepEvent.accepted := by
  have hred : acceptStep dec st m =
      (touchKeys
        { lastShare := some sh,
          allMnemonics := st.allMnemonics ++ [m],
          groups := fun idx =>
            if idx = sh.group_index then setAdd (st.groups idx) sh else st.groups idx,
          groupKeys := insert sh.group_index st.groupKeys }
        sh.group_count, StepEvent.accepted) := by
    unfold acceptStep
    rw [hdec]
    simp only [hlast, Option.getD_some]
    rw [if_neg (fun hn => hn hcp)]
  rw [hred]
  refine ⟨?_, rfl, rfl, rfl⟩
  intro idx
  show (if idx = sh.group_index then setAdd (st.groups idx) sh else st.groups idx) = st.groups idx
  by_cases hidx : idx = sh.group_index
  · subst hidx
    simp [setAdd, hmem]
  · rw [if_neg hidx]

/-- Witness for the amended C3 at the concrete session `cexSt`:
re-accepting "a" keeps the group sets, appends "a" again and re-points
`last_share` at `cexS1`. -/
theorem recover_duplicate_effect_witness :
    cexDec "a" = some cexS1 ∧ cexS1 ∈ cexSt.groups cexS1.group_index ∧
    ((∀ idx, (acceptStep cexDec cexSt "a").1.groups idx = cexSt.groups idx) ∧
     (acceptStep cexDec cexSt "a").1.allMnemonics = cexSt.allMnemonics ++ ["a"] ∧
     (acceptStep cexDec cexSt "a").1.lastShare = some cexS1 ∧
     (acceptStep cexDec cexSt "a").2 = StepEvent.accepted) :=
  ⟨by decide, by decide,
   recover_duplicate_effect cexDec cexSt "a" cexS1 cexS2 (by decide) (by decide) (by decide)
     (by decide)⟩

/-- C6: the first successfully decoded share of a session is accepted
unconditionally and defines the session's common parameters, and the
resulting invariant — every stored share, the last share and every
accepted mnemonic's share carry those same common parameters — is
preserved by every subsequent accept step. -/
theorem recover_first_share_invariant (dec : String → Option Share) (st : RecState)
    (m : String) (c : ℕ × ℕ × ℕ × ℕ) :
    (st.lastShare = none → st.allMnemonics = [] → (∀ idx, st.groups idx = []) →
      ∀ s, dec m = some s →
        (acceptStep dec st m).1.lastShare = some s ∧
        s ∈ (acceptStep dec st m).1.groups s.group_index ∧
        (acceptStep dec st m).1.allMnemonics = [m] ∧
        SessionInv dec s.commonParameters (acceptStep dec st m).1) ∧
    (SessionInv dec c st → SessionInv dec c (acceptStep dec st m).1) := by
  constructor
  · intro hnone hmn hgr s hdec
    have hred : acceptStep dec st m =
        (touchKeys
          { lastShare := some s,
            allMnemonics := st.allMnemonics ++ [m],
            groups := fun idx =>
              if idx = s.group_index then setAdd (st.groups idx) s else st.groups idx,
            groupKeys := insert s.group_index st.groupKeys }
          s.group_count, StepEvent.accepted) := by
      unfold acceptStep
      rw [hdec]
      simp only [hnone, Option.getD_none]
      rw [if_neg (fun hn => hn rfl)]
    rw [hred]
    have hmemg : s ∈ (if s.group_index = s.group_index then
        setAdd (st.groups s.group_index) s else st.groups s.group_index) := by
      rw [if_pos rfl, hgr s.group_index]
      simp [setAdd]
    refine ⟨rfl, hmemg, by rw [hmn]; rfl, ⟨s, rfl, rfl⟩, ?_, ?_⟩
    · intro idx x hx
      have hx2 : x ∈ (if idx = s.group_index then
          setAdd (st.groups idx) s else st.groups idx) := hx
      by_cases hidx : idx = s.group_index
      · rw [if_pos hidx, hidx, hgr s.group_index] at hx2
        simp [setAdd] at hx2
        rw [hx2]
      · rw [if_neg hidx, hgr idx] at hx2
        exact absurd hx2 (List.not_mem_nil x)
    · intro m2 hm2
      have hm3 : m2 ∈ st.allMnemonics ++ [m] := hm2
      rw [hmn] at hm3
      simp only [List.nil_append, List.mem_singleton] at hm3
      subst hm3
      exact ⟨s, hdec, rfl⟩
  · rintro ⟨⟨ls, hls, hlc⟩, hgroups, hmnems⟩
    cases hdm : dec m with
    | none =>
      unfold acceptStep
      rw [hdm]
      exact ⟨⟨ls, hls, hlc⟩, hgroups, hmnems⟩
    | some sh =>
      by_cases hmatch : ls.commonParameters ≠ sh.commonParameters
      · have hred : acceptStep dec st m =
            (touchKeys { st with lastShare := some ls } ls.group_count, StepEvent.mismatch) := by
          unfold acceptStep
          rw [hdm]
          simp only [hls, Option.getD_some]
          rw [if_pos hmatch]
        rw [hred]
        exact ⟨⟨ls, rfl, hlc⟩, hgroups, hmnems⟩
      · have hcp : sh.commonParameters = c := by
          rw [not_not] at hmatch
          rw [← hmatch, hlc]
        have hred : acceptStep dec st m =
            (touchKeys
              { lastShare := some sh,
                allMnemonics := st.allMnemonics ++ [m],
                groups := fun idx =>
                  if idx = sh.group_index then setAdd (st.groups idx) sh else st.groups idx,
                groupKeys := insert sh.group_index st.groupKeys }
              sh.group_count, StepEvent.accepted) := by
          unfold acceptStep
          rw [hdm]
          simp only [hls, Option.getD_some]
          rw [if_neg hmatch]
        rw [hred]
        refine ⟨⟨sh, rfl, hcp⟩, ?_, ?_⟩
        · intro idx x hx
          have hx2 : x ∈ (if idx = sh.group_index then
              setAdd (st.groups idx) sh else st.groups idx) := hx
          by_cases hidx : idx = sh.group_index
          · rw [if_pos hidx] at hx2
            rcases mem_setAdd hx2 with hx2 | hx2
            · exact hgroups _ x hx2
            · rw [hx2, hcp]
          · rw [if_neg hidx] at hx2
            exact hgroups _ x hx2
        · intro m2 hm2
          have hm3 : m2 ∈ st.allMnemonics ++ [m] := hm2
          rcases List.mem_append.mp hm3 with hm3 | hm3
          · exact hmnems m2 hm3
          · rw [List.mem_singleton.mp hm3]
            exact ⟨sh, hdm, hcp⟩

/-- Witness for C6: accepting "a" in the empty session accepts `cexS1`
unconditionally and establishes the invariant at its common parameters;
the invariant survives the following accept of "b". -/
theorem recover_first_share_invariant_witness :
    cexDec "a" = some cexS1 ∧
    (acceptStep cexDec initState "a").1.lastShare = some cexS1 ∧
    SessionInv cexDec cexS1.commonParameters
      (acceptStep cexDec (acceptStep cexDec initState "a").1 "b").1 := by
  have h1 := (recover_first_share_invariant cexDec initState "a"
    cexS1.commonParameters).1 rfl rfl (fun _ => rfl) cexS1 rfl
  have h2 := (recover_first_share_invariant cexDec (acceptStep cexDec initState "a").1 "b"
    cexS1.commonParameters).2 h1.2.2.2
  exact ⟨rfl, h1.1, h2⟩

/-- When every share of a group set carries the same member threshold,
the code's completeness test (threshold of `next(iter(group))`) agrees
with the specification's "at least the member threshold of any element". -/
theorem nCompleted_eq_claim (st : RecState)
    (hagree : ∀ idx, ∀ e1 ∈ st.groups idx, ∀ e2 ∈ st.groups idx,
      e1.member_threshold = e2.member_threshold) :
    nCompleted st = (st.groupKeys.filter (fun idx =>
      st.groups idx ≠ [] ∧
      ∀ e ∈ st.groups idx, e.member_threshold ≤ (st.groups idx).length)).card := by
  unfold nCompleted
  congr 1
  apply Finset.filter_congr
  intro idx _
  unfold groupIsComplete
  cases hg : st.groups idx with
  | nil => simp
  | cons e rest =>
    simp only [decide_eq_true_eq]
    constructor
    · intro h
      refine ⟨List.cons_ne_nil e rest, fun x hx => ?_⟩
      have hmt : x.member_threshold = e.member_threshold :=
        hagree idx x (hg ▸ hx) e (hg ▸ List.mem_cons_self e rest)
      rw [hmt]
      exact h
    · intro h
      exact h.2 e (List.mem_cons_self e rest)

/-- The loop guard fails exactly when some share has been accepted and
the number of complete groups has reached its group threshold. -/
theorem continueLoop_eq_false_iff (st : RecState)
    (hagree : ∀ idx, ∀ e1 ∈ st.groups idx, ∀ e2 ∈ st.groups idx,
      e1.member_threshold = e2.member_threshold) :
    continueLoop st = false ↔
      ∃ ls, st.lastShare = some ls ∧
        ls.group_threshold ≤ (st.groupKeys.filter (fun idx =>
          st.groups idx ≠ [] ∧
          ∀ e ∈ st.groups idx, e.member_threshold ≤ (st.groups idx).length)).card := by
  unfold continueLoop setIsComplete
  cases hls : st.lastShare with
  | none => simp
  | some ls =>
    simp only [Option.isNone_some, Bool.false_or, Bool.not_eq_false', decide_eq_true_eq]
    rw [nCompleted_eq_claim st hagree]
    constructor
    · intro h
      exact ⟨ls, rfl, h⟩
    · rintro ⟨ls2, hls2, hle⟩
      rw [Option.some.injEq] at hls2
      rw [hls2]
      exact hle

/-- Whenever the loop reaches the combine call, the reported mnemonics
are the final state's accepted list and the guard has failed there. -/
theorem runLoop_combine_state (dec : String → Option Share) (st : RecState)
    (inputs : List String) (l : List String) (st2 : RecState)
    (h : runLoop dec st inputs = RunResult.combineInvoked l st2) :
    l = st2.allMnemonics ∧ continueLoop st2 = false := by
  induction inputs generalizing st with
  | nil =>
    rw [runLoop] at h
    by_cases hc : continueLoop st = true
    · rw [if_pos hc] at h
      exact absurd h (by simp)
    · rw [if_neg hc] at h
      rw [RunResult.combineInvoked.injEq] at h
      refine ⟨?_, ?_⟩
      · rw [← h.1, ← h.2]
      · rw [← h.2]
        exact Bool.eq_false_iff.mpr hc
  | cons m ms ih =>
    rw [runLoop] at h
    by_cases hc : continueLoop st = true
    · rw [if_pos hc] at h
      exact ih (acceptStep dec st m).1 h
    · rw [if_neg hc] at h
      rw [RunResult.combineInvoked.injEq] at h
      refine ⟨?_, ?_⟩
      · rw [← h.1, ← h.2]
      · rw [← h.2]
        exact Bool.eq_false_iff.mpr hc

/-- C5: assuming each group set agrees on its member threshold (as the
specification notes, this is what makes "member_threshold of any of its
elements" well defined) and holds pairwise-distinct shares, the
collection loop hands `all_mnemonics` to `combine_mnemonics` exactly
when the number of complete groups — non-empty and holding at least the
member threshold of any of its elements many distinct shares — has
reached the session's group threshold, and otherwise it consumes the
next prompted share. -/
theorem recover_loop_exit_characterization (dec : String → Option Share) (st : RecState)
    (m : String) (ms : List String)
    (hagree : ∀ idx, ∀ e1 ∈ st.groups idx, ∀ e2 ∈ st.groups idx,
      e1.member_threshold = e2.member_threshold)
    (hnodup : ∀ idx, (st.groups idx).Nodup) :
    (runLoop dec st (m :: ms) = RunResult.combineInvoked st.allMnemonics st ↔
      ∃ ls, st.lastShare = some ls ∧
        ls.group_threshold ≤ (st.groupKeys.filter (fun idx =>
          st.groups idx ≠ [] ∧
          ∀ e ∈ st.groups idx, e.member_threshold ≤ (st.groups idx).length)).card) ∧
    ((¬ ∃ ls, st.lastShare = some ls ∧
        ls.group_threshold ≤ (st.groupKeys.filter (fun idx =>
          st.groups idx ≠ [] ∧
          ∀ e ∈ st.groups idx, e.member_threshold ≤ (st.groups idx).length)).card) →
      runLoop dec st (m :: ms) = runLoop dec (acceptStep dec st m).1 ms) := by
  constructor
  · constructor
    · intro h
      by_cases hc : continueLoop st = true
      · rw [runLoop, if_pos hc] at h
        have h2 := (runLoop_combine_state dec (acceptStep dec st m).1 ms _ _ h).2
        rw [h2] at hc
        exact absurd hc (by simp)
      · exact (continueLoop_eq_false_iff st hagree).mp (Bool.eq_false_iff.mpr hc)
    · intro h
      have hc : continueLoop st = false := (continueLoop_eq_false_iff st hagree).mpr h
      rw [runLoop, if_neg (by rw [hc]; simp)]
  · intro h
    have hc : continueLoop st = true := by
      by_cases hc2 : continueLoop st = true
      · exact hc2
      · exact absurd ((continueLoop_eq_false_iff st hagree).mp (Bool.eq_false_iff.mpr hc2)) h
    exact runLoop_cons_of_continue dec st m ms hc

/-- Witness for C5 at the empty session: its group sets trivially agree,
the loop does not exit (no share accepted yet), and it consumes the
prompted input. -/
theorem recover_loop_exit_characterization_witness :
    (∀ idx, ∀ e1 ∈ initState.groups idx, ∀ e2 ∈ initState.groups idx,
      e1.member_threshold = e2.member_threshold) ∧
    ((runLoop cexDec initState ["a"] = RunResult.combineInvoked initState.allMnemonics initState ↔
      ∃ ls, initState.lastShare = some ls ∧
        ls.group_threshold ≤ (initState.groupKeys.filter (fun idx =>
          initState.groups idx ≠ [] ∧
          ∀ e ∈ initState.groups idx,
            e.member_threshold ≤ (initState.groups idx).length)).card) ∧
     ((¬ ∃ ls, initState.lastShare = some ls ∧
        ls.group_threshold ≤ (initState.groupKeys.filter (fun idx =>
          initState.groups idx ≠ [] ∧
          ∀ e ∈ initState.groups idx,
            e.member_threshold ≤ (initState.groups idx).length)).card) →
      runLoop cexDec initState ["a"] = runLoop cexDec (acceptStep cexDec initState "a").1 [])) :=
  ⟨fun _ e1 h1 => absurd h1 (List.not_mem_nil e1),
   recover_loop_exit_characterization cexDec initState "a" []
     (fun _ e1 h1 => absurd h1 (List.not_mem_nil e1))
     (fun _ => List.nodup_nil)⟩

/-- The four header words spelt out. -/
theorem wordsFromValue_four (v : ℕ) :
    wordsFromValue 4 v =
      [v / 1073741824 % 1024, v / 1048576 % 1024, v / 1024 % 1024, v % 1024] := by
  simp [wordsFromValue, List.range_succ]

/-- The first three of the four header words ignore the low 8 bits (the
member index and member threshold). -/
theorem take3_wordsFromValue_four (A B1 B2 : ℕ) (h1 : B1 < 256) (h2 : B2 < 256) :
    (wordsFromValue 4 (A * 256 + B1)).take 3 = (wordsFromValue 4 (A * 256 + B2)).take 3 := by
  rw [wordsFromValue_four, wordsFromValue_four]
  have e0 : (A * 256 + B1) / 1073741824 % 1024 = (A * 256 + B2) / 1073741824 % 1024 := by
    omega
  have e1 : (A * 256 + B1) / 1048576 % 1024 = (A * 256 + B2) / 1048576 % 1024 := by omega
  have e2 : (A * 256 + B1) / 1024 % 1024 = (A * 256 + B2) / 1024 % 1024 := by omega
  simp [e0, e1, e2]

/-- The header packing split into the 32 leading bits (common parameters
and group index) and the 8 trailing bits (member fields). -/
theorem headerValue_decomp (s : Share) :
    headerValue s =
      ((((s.identifier * 2 ^ 5 + s.iteration_exponent) * 2 ^ 4 + s.group_index) * 2 ^ 4 +
          (s.group_threshold - 1)) * 2 ^ 4 + (s.group_count - 1)) * 256 +
        (s.member_index * 2 ^ 4 + (s.member_threshold - 1)) := by
  unfold headerValue
  ring

/-- C9: for two shares with equal common parameters, the group prefix
displayed by `recover` (the first `GROUP_PREFIX_LENGTH_WORDS` words of
the share re-encoded at any group index) is the same string whichever of
the two was accepted last: it does not depend on `member_index`,
`member_threshold` or the share value. -/
theorem group_prefix_member_independent (w : ℕ → String) (cks : List ℕ → List ℕ)
    (s1 s2 : Share) (idx : ℕ)
    (hcp : s1.commonParameters = s2.commonParameters)
    (hmi1 : s1.member_index < 16) (hmt1 : s1.member_threshold ≤ 16)
    (hmi2 : s2.member_index < 16) (hmt2 : s2.member_threshold ≤ 16) :
    makeGroupPrefixStr w cks s1 idx = makeGroupPrefixStr w cks s2 idx := by
  simp only [Share.commonParameters, Prod.mk.injEq] at hcp
  obtain ⟨hid, hexp, hgt, hgc⟩ := hcp
  unfold makeGroupPrefixStr GROUP_PREFIX_LENGTH_WORDS
  apply congrArg
  apply congrArg
  have hlen4 : ∀ v : ℕ, (wordsFromValue 4 v).length = 4 := fun v => by simp [wordsFromValue]
  have key : ∀ s : Share, (shareWordSyms cks s).take 3 =
      (wordsFromValue 4 (headerValue s)).take 3 := by
    intro s
    show ((wordsFromValue 4 (headerValue s) ++
        wordsFromValue ((8 * s.value.length + 9) / 10) (valueInt s)) ++
      cks (wordsFromValue 4 (headerValue s) ++
        wordsFromValue ((8 * s.value.length + 9) / 10) (valueInt s))).take 3 = _
    calc ((wordsFromValue 4 (headerValue s) ++
          wordsFromValue ((8 * s.value.length + 9) / 10) (valueInt s)) ++
        cks (wordsFromValue 4 (headerValue s) ++
          wordsFromValue ((8 * s.value.length + 9) / 10) (valueInt s))).take 3
        = (wordsFromValue 4 (headerValue s) ++
            wordsFromValue ((8 * s.value.length + 9) / 10) (valueInt s)).take 3 :=
          List.take_eq_left_iff.mpr (Or.inr (by rw [List.length_append, hlen4]; omega))
      _ = (wordsFromValue 4 (headerValue s)).take 3 :=
          List.take_eq_left_iff.mpr (Or.inr (by rw [hlen4]; omega))
  rw [key, key]
  simp only [headerValue_decomp]
  rw [hid, hexp, hgt, hgc]
  exact take3_wordsFromValue_four _ _ _ (by omega) (by omega)

/-- Witness for C9: the shares `cexS1` and `cexS2` differ in member
index but share common parameters, and yield the same group prefix at
group index 0. -/
theorem group_prefix_member_independent_witness :
    cexS1.commonParameters = cexS2.commonParameters ∧
    makeGroupPrefixStr (fun n => toString n) (fun _ => []) cexS1 0 =
      makeGroupPrefixStr (fun n => toString n) (fun _ => []) cexS2 0 :=
  ⟨by decide,
   group_prefix_member_independent (fun n => toString n) (fun _ => []) cexS1 cexS2 0
     (by decide) (by decide) (by decide) (by decide) (by decide)⟩

/-! ### List and cipher lemmas for the engine -/

/-- Reading a mapped range at an in-range position. -/
theorem getD_range_map {α : Type} (L c : ℕ) (f : ℕ → α) (d : α) (h : c < L) :
    ((List.range L).map f).getD c d = f c := by
  rw [List.getD_eq_getElem?_getD]
  rw [List.getElem?_eq_getElem (by simpa using h)]
  simp

/-- A list is the range-indexed map of its own entries. -/
theorem range_map_getD {α : Type} (l : List α) (d : α) :
    (List.range l.length).map (fun c => l.getD c d) = l := by
  apply List.ext_getElem
  · simp
  · intro i h1 h2
    simp only [List.getElem_map, List.getElem_range]
    rw [List.getD_eq_getElem?_getD, List.getElem?_eq_getElem h2]
    simp

/-- Byte-wise xor cancels itself on equal lengths. -/
theorem xorBytes_cancel (a b : List ℕ) (h : b.length = a.length) :
    xorBytes (xorBytes a b) b = a := by
  induction a generalizing b with
  | nil =>
    cases b with
    | nil => rfl
    | cons x xs => exact absurd h (by simp)
  | cons x xs ih =>
    cases b with
    | nil => exact absurd h (by simp)
    | cons y ys =>
      simp only [xorBytes, List.zipWith_cons_cons]
      rw [show List.zipWith (fun x y => x ^^^ y) (List.zipWith (fun x y => x ^^^ y) xs ys) ys =
        xorBytes (xorBytes xs ys) ys from rfl]
      rw [ih ys (by simpa using h)]
      rw [Nat.xor_cancel_right]

/-- Length of a byte-wise xor. -/
theorem length_xorBytes (a b : List ℕ) : (xorBytes a b).length = min a.length b.length := by
  simp [xorBytes]

/-- The Feistel rounds over an appended round list compose. -/
theorem feistelRounds_append (rf : ℕ → List ℕ → List ℕ) (as bs : List ℕ)
    (s : List ℕ × List ℕ) :
    feistelRounds rf (as ++ bs) s = feistelRounds rf bs (feistelRounds rf as s) := by
  induction as generalizing s with
  | nil => rfl
  | cons i is ih =>
    obtain ⟨l, r⟩ := s
    rw [List.cons_append]
    show feistelRounds rf (is ++ bs) (r, xorBytes l (rf i r)) = _
    rw [ih]
    rfl

/-- The halves keep their common length through the rounds. -/
theorem feistelRounds_length (rf : ℕ → List ℕ → List ℕ)
    (hrf : ∀ i x, (rf i x).length = x.length) (is : List ℕ) (l r : List ℕ) (h : ℕ)
    (hl : l.length = h) (hr : r.length = h) :
    (feistelRounds rf is (l, r)).1.length = h ∧ (feistelRounds rf is (l, r)).2.length = h := by
  induction is generalizing l r with
  | nil => exact ⟨hl, hr⟩
  | cons i is ih =>
    show (feistelRounds rf is (r, xorBytes l (rf i r))).1.length = h ∧ _
    exact ih r (xorBytes l (rf i r)) hr (by rw [length_xorBytes, hrf, hl, hr]; omega)

/-- Running the rounds in reverse order on the swapped result undoes the
rounds. -/
theorem feistelRounds_reverse (rf : ℕ → List ℕ → List ℕ)
    (hrf : ∀ i x, (rf i x).length = x.length) (is : List ℕ) (l r : List ℕ) (h : ℕ)
    (hl : l.length = h) (hr : r.length = h) :
    feistelRounds rf is.reverse
      ((feistelRounds rf is (l, r)).2, (feistelRounds rf is (l, r)).1) = (r, l) := by
  induction is generalizing l r with
  | nil => rfl
  | cons i is ih =>
    have hx : (xorBytes l (rf i r)).length = h := by
      rw [length_xorBytes, hrf, hl, hr]; omega
    have hstep : feistelRounds rf (i :: is) (l, r) =
        feistelRounds rf is (r, xorBytes l (rf i r)) := rfl
    rw [hstep]
    rw [List.reverse_cons, feistelRounds_append]
    rw [ih r (xorBytes l (rf i r)) hr hx]
    show (r, xorBytes (xorBytes l (rf i r)) (rf i r)) = (r, l)
    rw [xorBytes_cancel l (rf i r) (by rw [hrf, hr, hl])]

/-- `feistelEncrypt` with its lets spelt out. -/
theorem feistelEncrypt_eq (rf : ℕ → List ℕ → List ℕ) (s : List ℕ) :
    feistelEncrypt rf s =
      (feistelRounds rf [0, 1, 2, 3] (s.take (s.length / 2), s.drop (s.length / 2))).2 ++
      (feistelRounds rf [0, 1, 2, 3] (s.take (s.length / 2), s.drop (s.length / 2))).1 := rfl

/-- `feistelDecrypt` with its lets spelt out. -/
theorem feistelDecrypt_eq (rf : ℕ → List ℕ → List ℕ) (s : List ℕ) :
    feistelDecrypt rf s =
      (feistelRounds rf [3, 2, 1, 0] (s.take (s.length / 2), s.drop (s.length / 2))).2 ++
      (feistelRounds rf [3, 2, 1, 0] (s.take (s.length / 2), s.drop (s.length / 2))).1 := rfl

/-- The cipher preserves the length of an even-length secret. -/
theorem feistelEncrypt_length (rf : ℕ → List ℕ → List ℕ)
    (hrf : ∀ i x, (rf i x).length = x.length) (s : List ℕ) (heven : s.length % 2 = 0) :
    (feistelEncrypt rf s).length = s.length := by
  rw [feistelEncrypt_eq]
  have h1 : (s.take (s.length / 2)).length = s.length / 2 := by
    rw [List.length_take]; omega
  have h2 : (s.drop (s.length / 2)).length = s.length / 2 := by
    rw [List.length_drop]; omega
  have hl := feistelRounds_length rf hrf [0, 1, 2, 3] _ _ (s.length / 2) h1 h2
  rw [List.length_append, hl.1, hl.2]
  omega

/-- Modelled from the spec (section 4.5): decryption inverts encryption
on even-length secrets when the round function preserves the half
length. -/
theorem feistelDecrypt_encrypt (rf : ℕ → List ℕ → List ℕ)
    (hrf : ∀ i x, (rf i x).length = x.length) (s : List ℕ) (heven : s.length % 2 = 0) :
    feistelDecrypt rf (feistelEncrypt rf s) = s := by
  have h1 : (s.take (s.length / 2)).length = s.length / 2 := by
    rw [List.length_take]; omega
  have h2 : (s.drop (s.length / 2)).length = s.length / 2 := by
    rw [List.length_drop]; omega
  have hl := feistelRounds_length rf hrf [0, 1, 2, 3] _ _ (s.length / 2) h1 h2
  have hlen : (feistelEncrypt rf s).length = s.length := feistelEncrypt_length rf hrf s heven
  rw [feistelDecrypt_eq, feistelEncrypt_eq]
  rw [show (((feistelRounds rf [0, 1, 2, 3] (s.take (s.length / 2), s.drop (s.length / 2))).2 ++
      (feistelRounds rf [0, 1, 2, 3] (s.take (s.length / 2), s.drop (s.length / 2))).1).length) =
    s.length from by rw [← feistelEncrypt_eq]; exact hlen]
  rw [List.take_left' hl.2, List.drop_left' hl.2]
  have hrev := feistelRounds_reverse rf hrf [0, 1, 2, 3] (s.take (s.length / 2))
    (s.drop (s.length / 2)) (s.length / 2) h1 h2
  rw [show ([0, 1, 2, 3] : List ℕ).reverse = [3, 2, 1, 0] from rfl] at hrev
  rw [hrev]
  exact List.take_append_drop _ s

/-- Byte-wise xor of byte strings yields bytes. -/
theorem xorBytes_bytes (a b : List ℕ) (ha : ∀ x ∈ a, x < 256) (hb : ∀ x ∈ b, x < 256) :
    ∀ x ∈ xorBytes a b, x < 256 := by
  induction a generalizing b with
  | nil => intro x hx; simp [xorBytes] at hx
  | cons p ps ih =>
    intro x hx
    cases b with
    | nil => simp [xorBytes] at hx
    | cons q qs =>
      simp only [xorBytes, List.zipWith_cons_cons, List.mem_cons] at hx
      rcases hx with hx | hx
      · have hp : p < 2 ^ 8 := by
          have := ha p (List.mem_cons_self p ps); omega
        have hq : q < 2 ^ 8 := by
          have := hb q (List.mem_cons_self q qs); omega
        have := @Nat.xor_lt_two_pow p q 8 hp hq
        omega
      · exact ih qs (fun y hy => ha y (List.mem_cons_of_mem p hy))
          (fun y hy => hb y (List.mem_cons_of_mem q hy)) x hx

/-- The rounds keep both halves made of bytes when the round function
maps bytes to bytes. -/
theorem feistelRounds_bytes (rf : ℕ → List ℕ → List ℕ)
    (hrfb : ∀ i x, (∀ b ∈ x, b < 256) → ∀ b ∈ rf i x, b < 256)
    (is : List ℕ) (l r : List ℕ)
    (hl : ∀ x ∈ l, x < 256) (hr : ∀ x ∈ r, x < 256) :
    (∀ x ∈ (feistelRounds rf is (l, r)).1, x < 256) ∧
    (∀ x ∈ (feistelRounds rf is (l, r)).2, x < 256) := by
  induction is generalizing l r with
  | nil => exact ⟨hl, hr⟩
  | cons i is ih =>
    exact ih r (xorBytes l (rf i r)) hr (xorBytes_bytes l (rf i r) hl (hrfb i r hr))

/-- The encrypted master secret is made of bytes. -/
theorem feistelEncrypt_bytes (rf : ℕ → List ℕ → List ℕ)
    (hrfb : ∀ i x, (∀ b ∈ x, b < 256) → ∀ b ∈ rf i x, b < 256)
    (s : List ℕ) (hs : ∀ x ∈ s, x < 256) : ∀ x ∈ feistelEncrypt rf s, x < 256 := by
  intro x hx
  rw [feistelEncrypt_eq] at hx
  have hb := feistelRounds_bytes rf hrfb [0, 1, 2, 3] (s.take (s.length / 2))
    (s.drop (s.length / 2)) (fun y hy => hs y (List.mem_of_mem_take hy))
    (fun y hy => hs y (List.mem_of_mem_drop hy))
  rcases List.mem_append.mp hx with hx | hx
  · exact hb.2 x hx
  · exact hb.1 x hx

/-! ### Interpolation lemmas -/

section EngineProofs

variable {F : Type} [Field F] [DecidableEq F]

/-- The computable interpolation formula agrees with the evaluation of
the Lagrange interpolation polynomial. -/
theorem interp_eq_eval (t : ℕ) (xs ys : Fin t → F) (x : F) :
    interp t xs ys x = (Lagrange.interpolate Finset.univ xs ys).eval x := by
  unfold interp
  rw [Lagrange.interpolate_apply, Polynomial.eval_finset_sum]
  refine Finset.sum_congr rfl fun i _ => ?_
  rw [Polynomial.eval_mul, Polynomial.eval_C]
  congr 1
  unfold Lagrange.basis
  rw [Polynomial.eval_prod]
  refine Finset.prod_congr rfl fun j _ => ?_
  unfold Lagrange.basisDivisor
  rw [Polynomial.eval_mul, Polynomial.eval_C, Polynomial.eval_sub, Polynomial.eval_X,
    Polynomial.eval_C]
  rw [div_eq_mul_inv, mul_comm]

/-- Interpolating the values of a polynomial of degree below the node
count reproduces the polynomial's value everywhere. -/
theorem interp_eval_poly (t : ℕ) (xs : Fin t → F) (hinj : Function.Injective xs)
    (p : Polynomial F) (hdeg : p.degree < t) (x : F) :
    interp t xs (fun i => p.eval (xs i)) x = p.eval x := by
  rw [interp_eq_eval]
  have h2 : p = Lagrange.interpolate Finset.univ xs fun i => p.eval (xs i) :=
    Lagrange.eq_interpolate (Function.Injective.injOn hinj) (by simpa using hdeg)
  rw [← h2]

/-- The interpolation formula reproduces each node value. -/
theorem interp_at_node (t : ℕ) (xs ys : Fin t → F) (hinj : Function.Injective xs)
    (i : Fin t) : interp t xs ys (xs i) = ys i := by
  rw [interp_eq_eval]
  exact Lagrange.eval_interpolate_at_node ys (Function.Injective.injOn hinj)
    (Finset.mem_univ i)

/-- The basis nodes of a split are pairwise distinct field elements. -/
theorem basisX_injective (ι : ℕ → F) (t : ℕ)
    (hι : ∀ a b, a < 256 → b < 256 → ι a = ι b → a = b) (ht : t ≤ 16) :
    Function.Injective (basisX ι t) := by
  intro i j hij
  have hi2 := i.2
  have hj2 := j.2
  unfold basisX at hij
  apply Fin.ext
  by_cases hi : i.1 < t - 2 <;> by_cases hj : j.1 < t - 2
  · rw [if_pos hi, if_pos hj] at hij
    exact hι _ _ (by omega) (by omega) hij
  · by_cases hj3 : j.1 = t - 2
    · rw [if_pos hi, if_neg hj, if_pos hj3] at hij
      have := hι _ _ (by omega) (by omega) hij
      omega
    · rw [if_pos hi, if_neg hj, if_neg hj3] at hij
      have := hι _ _ (by omega) (by omega) hij
      omega
  · by_cases hi3 : i.1 = t - 2
    · rw [if_neg hi, if_pos hi3, if_pos hj] at hij
      have := hι _ _ (by omega) (by omega) hij
      omega
    · rw [if_neg hi, if_neg hi3, if_pos hj] at hij
      have := hι _ _ (by omega) (by omega) hij
      omega
  · by_cases hi3 : i.1 = t - 2 <;> by_cases hj3 : j.1 = t - 2
    · omega
    · rw [if_neg hi, if_pos hi3, if_neg hj, if_neg hj3] at hij
      have := hι _ _ (by omega) (by omega) hij
      omega
    · rw [if_neg hi, if_neg hi3, if_neg hj, if_pos hj3] at hij
      have := hι _ _ (by omega) (by omega) hij
      omega
    · omega

/-- Every fragment byte produced by a `t ≥ 2` split lies on the basis
interpolation polynomial. -/
theorem shareValueAt_eq_eval (ι : ℕ → F) (t : ℕ) (sc dc : F) (rnd : ℕ → F) (k : ℕ)
    (hι : ∀ a b, a < 256 → b < 256 → ι a = ι b → a = b)
    (ht2 : 2 ≤ t) (ht : t ≤ 16) (hk : k < 16) :
    shareValueAt ι t sc dc rnd k =
      (Lagrange.interpolate Finset.univ (basisX ι t) (basisY t sc dc rnd)).eval (ι k) := by
  unfold shareValueAt
  rw [if_neg (by omega)]
  by_cases hk2 : k < t - 2
  · rw [if_pos hk2]
    have hkt : k < t := by omega
    have h1 : basisX ι t ⟨k, hkt⟩ = ι k := by
      show (if k < t - 2 then ι k else if k = t - 2 then ι 254 else ι 255) = ι k
      rw [if_pos hk2]
    have h2 : basisY t sc dc rnd ⟨k, hkt⟩ = rnd k := by
      show (if k < t - 2 then rnd k else if k = t - 2 then dc else sc) = rnd k
      rw [if_pos hk2]
    have hnode := interp_at_node t (basisX ι t) (basisY t sc dc rnd)
      (basisX_injective ι t hι ht) ⟨k, hkt⟩
    rw [interp_eq_eval, h1, h2] at hnode
    exact hnode.symm
  · rw [if_neg hk2]
    exact interp_eq_eval t _ _ (ι k)

/-- The basis polynomial takes the secret byte at node 255. -/
theorem eval_node_secret (ι : ℕ → F) (t : ℕ) (sc dc : F) (rnd : ℕ → F)
    (hι : ∀ a b, a < 256 → b < 256 → ι a = ι b → a = b)
    (ht2 : 2 ≤ t) (ht : t ≤ 16) :
    (Lagrange.interpolate Finset.univ (basisX ι t) (basisY t sc dc rnd)).eval (ι 255) = sc := by
  have hkt : t - 1 < t := by omega
  have h1 : basisX ι t ⟨t - 1, hkt⟩ = ι 255 := by
    show (if t - 1 < t - 2 then ι (t - 1) else if t - 1 = t - 2 then ι 254 else ι 255) = ι 255
    rw [if_neg (by omega), if_neg (by omega)]
  have h2 : basisY t sc dc rnd ⟨t - 1, hkt⟩ = sc := by
    show (if t - 1 < t - 2 then rnd (t - 1) else if t - 1 = t - 2 then dc else sc) = sc
    rw [if_neg (by omega), if_neg (by omega)]
  have hnode := Lagrange.eval_interpolate_at_node (basisY t sc dc rnd)
    (Function.Injective.injOn (basisX_injective ι t hι ht))
    (Finset.mem_univ (⟨t - 1, hkt⟩ : Fin t))
  rw [h1, h2] at hnode
  exact hnode

/-- The basis polynomial takes the digest byte at node 254. -/
theorem eval_node_digest (ι : ℕ → F) (t : ℕ) (sc dc : F) (rnd : ℕ → F)
    (hι : ∀ a b, a < 256 → b < 256 → ι a = ι b → a = b)
    (ht2 : 2 ≤ t) (ht : t ≤ 16) :
    (Lagrange.interpolate Finset.univ (basisX ι t) (basisY t sc dc rnd)).eval (ι 254) = dc := by
  have hkt : t - 2 < t := by omega
  have h1 : basisX ι t ⟨t - 2, hkt⟩ = ι 254 := by
    show (if t - 2 < t - 2 then ι (t - 2) else if t - 2 = t - 2 then ι 254 else ι 255) = ι 254
    rw [if_neg (by omega), if_pos rfl]
  have h2 : basisY t sc dc rnd ⟨t - 2, hkt⟩ = dc := by
    show (if t - 2 < t - 2 then rnd (t - 2) else if t - 2 = t - 2 then dc else sc) = dc
    rw [if_neg (by omega), if_pos rfl]
  have hnode := Lagrange.eval_interpolate_at_node (basisY t sc dc rnd)
    (Function.Injective.injOn (basisX_injective ι t hι ht))
    (Finset.mem_univ (⟨t - 2, hkt⟩ : Fin t))
  rw [h1, h2] at hnode
  exact hnode

/-- Recombining any `t` distinct fragments of a `t`-threshold split at a
target byte index reproduces the basis polynomial's value there. -/
theorem interp_split_fragments (ι : ℕ → F) (t : ℕ) (sc dc : F) (rnd : ℕ → F)
    (hι : ∀ a b, a < 256 → b < 256 → ι a = ι b → a = b)
    (ht2 : 2 ≤ t) (ht : t ≤ 16)
    (sel : Fin t → ℕ) (hinj : Function.Injective sel) (hlt : ∀ i, sel i < 16) (x : F) :
    interp t (fun i => ι (sel i)) (fun i => shareValueAt ι t sc dc rnd (sel i)) x =
      (Lagrange.interpolate Finset.univ (basisX ι t) (basisY t sc dc rnd)).eval x := by
  have hvals : (fun i => shareValueAt ι t sc dc rnd (sel i)) = fun i =>
      (Lagrange.interpolate Finset.univ (basisX ι t) (basisY t sc dc rnd)).eval (ι (sel i)) := by
    funext i
    exact shareValueAt_eq_eval ι t sc dc rnd (sel i) hι ht2 ht (hlt i)
  rw [hvals]
  apply interp_eval_poly
  · intro i j hij
    exact hinj (hι _ _ (by have := hlt i; omega) (by have := hlt j; omega) hij)
  · have hinj2 : Set.InjOn (basisX ι t) (Finset.univ : Finset (Fin t)) :=
      Function.Injective.injOn (basisX_injective ι t hι ht)
    have := Lagrange.degree_interpolate_lt (basisY t sc dc rnd) hinj2
    simpa using this

/-- The heart of the round trip: recombining exactly `t` fragments of
a `t`-threshold split, selected at any distinct member indices, passes
the digest check and returns the split byte string. -/
theorem recombineValue_splitValue (ι : ℕ → F) (dgF : List F → List F → List F)
    (t L : ℕ) (s salt : List F) (rnd : ℕ → List F)
    (hι : ∀ a b, a < 256 → b < 256 → ι a = ι b → a = b)
    (ht1 : 1 ≤ t) (ht : t ≤ 16) (hL : 4 ≤ L) (hsL : s.length = L)
    (hsalt : salt.length = L - 4) (hdg : ∀ a b, (dgF a b).length = 4)
    (sel : Fin t → ℕ) (hinj : Function.Injective sel) (hlt : ∀ i, sel i < 16) :
    recombineValue ι dgF t L
      (fun i => (sel i, splitValue ι t L s (dgF s salt ++ salt) rnd (sel i))) =
      Except.ok s := by
  by_cases hteq : t = 1
  · subst hteq
    unfold recombineValue
    rw [dif_pos rfl]
    congr 1
    show splitValue ι 1 L s (dgF s salt ++ salt) rnd (sel ⟨0, Nat.zero_lt_one⟩) = s
    have hsv : splitValue ι 1 L s (dgF s salt ++ salt) rnd (sel ⟨0, Nat.zero_lt_one⟩) =
        (List.range L).map (fun c => s.getD c 0) := by
      unfold splitValue shareValueAt
      simp
    rw [hsv, ← hsL]
    exact range_map_getD s 0
  · have ht2 : 2 ≤ t := by omega
    unfold recombineValue
    rw [dif_neg hteq]
    set D := dgF s salt ++ salt with hD
    have hDlen : D.length = L := by
      rw [hD, List.length_append, hdg, hsalt]; omega
    have hptv : ∀ (i : Fin t) (c : ℕ), c < L →
        (splitValue ι t L s D rnd (sel i)).getD c 0 =
          shareValueAt ι t (s.getD c 0) (D.getD c 0) (fun j => (rnd j).getD c 0) (sel i) := by
      intro i c hc
      unfold splitValue
      exact getD_range_map L c _ 0 hc
    have hpoint : ∀ (x : F) (c : ℕ), c < L → interp t (fun i => ι (sel i))
        (fun i => (splitValue ι t L s D rnd (sel i)).getD c 0) x =
        (Lagrange.interpolate Finset.univ (basisX ι t)
          (basisY t (s.getD c 0) (D.getD c 0) (fun j => (rnd j).getD c 0))).eval x := by
      intro x c hc
      have he : (fun i : Fin t => (splitValue ι t L s D rnd (sel i)).getD c 0) =
          fun i => shareValueAt ι t (s.getD c 0) (D.getD c 0)
            (fun j => (rnd j).getD c 0) (sel i) := by
        funext i
        exact hptv i c hc
      rw [he]
      exact interp_split_fragments ι t _ _ _ hι ht2 ht sel hinj hlt x
    have hsec : ((List.range L).map fun c => interp t (fun i => ι (sel i))
        (fun i => (splitValue ι t L s D rnd (sel i)).getD c 0) (ι 255)) = s := by
      apply List.ext_getElem
      · simp [hsL]
      · intro n h1 h2
        simp only [List.getElem_map, List.getElem_range]
        rw [hpoint (ι 255) n (by simpa using h1),
          eval_node_secret ι t _ _ _ hι ht2 ht]
        rw [List.getD_eq_getElem?_getD, List.getElem?_eq_getElem h2]
        simp
    have hdgv : ((List.range L).map fun c => interp t (fun i => ι (sel i))
        (fun i => (splitValue ι t L s D rnd (sel i)).getD c 0) (ι 254)) = D := by
      apply List.ext_getElem
      · simp [hDlen]
      · intro n h1 h2
        simp only [List.getElem_map, List.getElem_range]
        rw [hpoint (ι 254) n (by simpa using h1),
          eval_node_digest ι t _ _ _ hι ht2 ht]
        rw [List.getD_eq_getElem?_getD, List.getElem?_eq_getElem h2]
        simp
    have htake : D.take 4 = dgF s salt := by
      rw [hD]
      exact List.take_left' (hdg s salt)
    have hdrop : D.drop 4 = salt := by
      rw [hD]
      exact List.drop_left' (hdg s salt)
    show (if ((List.range L).map fun c => interp t (fun i => ι (sel i))
          (fun i => (splitValue ι t L s D rnd (sel i)).getD c 0) (ι 254)).take 4 =
        dgF ((List.range L).map fun c => interp t (fun i => ι (sel i))
          (fun i => (splitValue ι t L s D rnd (sel i)).getD c 0) (ι 255))
          (((List.range L).map fun c => interp t (fun i => ι (sel i))
            (fun i => (splitValue ι t L s D rnd (sel i)).getD c 0) (ι 254)).drop 4)
      then Except.ok ((List.range L).map fun c => interp t (fun i => ι (sel i))
          (fun i => (splitValue ι t L s D rnd (sel i)).getD c 0) (ι 255))
      else Except.error "Invalid digest of the shared secret.") = Except.ok s
    rw [hsec, hdgv, htake, hdrop, if_pos rfl]

/-- The share value at group `j`, member `k` of `generate`'s output. -/
theorem generate_getD (ι : ℕ → F) (dgF : List F → List F → List F)
    (rf : ℕ → List ℕ → List ℕ) (gt : ℕ) (groups : List (ℕ × ℕ)) (secret : List ℕ)
    (gsalt : List F) (grnd : ℕ → List F) (msalt : ℕ → List F) (mrnd : ℕ → ℕ → List F)
    (j k : ℕ) (hj : j < groups.length) (hk : k < (groups.getD j (1, 1)).2) :
    ((generate ι dgF rf gt groups secret gsalt grnd msalt mrnd).getD j []).getD k [] =
      splitValue ι (groups.getD j (1, 1)).1 secret.length
        (splitValue ι gt secret.length ((feistelEncrypt rf secret).map ι)
          (dgF ((feistelEncrypt rf secret).map ι) gsalt ++ gsalt) grnd j)
        (dgF (splitValue ι gt secret.length ((feistelEncrypt rf secret).map ι)
          (dgF ((feistelEncrypt rf secret).map ι) gsalt ++ gsalt) grnd j)
          (msalt j) ++ msalt j)
        (mrnd j) k := by
  have h1 : generate ι dgF rf gt groups secret gsalt grnd msalt mrnd =
      (List.range groups.length).map (fun j2 =>
        (List.range (groups.getD j2 (1, 1)).2).map fun k2 =>
          splitValue ι (groups.getD j2 (1, 1)).1 secret.length
            (splitValue ι gt secret.length ((feistelEncrypt rf secret).map ι)
              (dgF ((feistelEncrypt rf secret).map ι) gsalt ++ gsalt) grnd j2)
            (dgF (splitValue ι gt secret.length ((feistelEncrypt rf secret).map ι)
              (dgF ((feistelEncrypt rf secret).map ι) gsalt ++ gsalt) grnd j2)
              (msalt j2) ++ msalt j2)
            (mrnd j2) k2) := rfl
  rw [h1, getD_range_map _ j _ _ hj, getD_range_map _ k _ _ hk]

/-- C1: for every supported secret length (even, at least 4 bytes),
every valid `(group_threshold, groups)` configuration and any passphrase
(any length-preserving byte-valued round function `rf`, which subsumes
every passphrase, identifier and iteration exponent of section 4.5),
combining the shares produced by `generate` — exactly `member_threshold`
shares from each of exactly `group_threshold` groups, for every
sufficient subset (`gsel`, `msel` arbitrary injective selections), not
only the first-chosen shares — passes every digest check and returns the
original master secret.  `ι` is any injective embedding of the byte
indices into the field (the identity on GF(256)), `ιi` its left inverse,
`dgF` the 4-byte digest function, and the `salt`/`rnd` arguments the
random values drawn during the split. -/
theorem generate_combine_roundtrip {F : Type} [Field F] [DecidableEq F]
    (ι : ℕ → F) (ιi : F → ℕ) (dgF : List F → List F → List F) (rf : ℕ → List ℕ → List ℕ)
    (gt : ℕ) (groups : List (ℕ × ℕ)) (secret : List ℕ)
    (gsalt : List F) (grnd : ℕ → List F) (msalt : ℕ → List F) (mrnd : ℕ → ℕ → List F)
    (gsel : Fin gt → ℕ) (msel : (i : Fin gt) → Fin (groups.getD (gsel i) (1, 1)).1 → ℕ)
    (hι : ∀ a b, a < 256 → b < 256 → ι a = ι b → a = b)
    (hιi : ∀ b, b < 256 → ιi (ι b) = b)
    (hsec : ∀ b ∈ secret, b < 256)
    (heven : secret.length % 2 = 0) (hL4 : 4 ≤ secret.length)
    (hrf : ∀ i x, (rf i x).length = x.length)
    (hrfb : ∀ i x, (∀ b ∈ x, b < 256) → ∀ b ∈ rf i x, b < 256)
    (hdg : ∀ a b, (dgF a b).length = 4)
    (hgt1 : 1 ≤ gt) (hgtle : gt ≤ groups.length) (hgc16 : groups.length ≤ 16)
    (hgroups : ∀ p ∈ groups, 1 ≤ p.1 ∧ p.1 ≤ p.2 ∧ p.2 ≤ 16 ∧ ¬(p.1 = 1 ∧ 1 < p.2))
    (hgsalt : gsalt.length = secret.length - 4)
    (hmsalt : ∀ j, (msalt j).length = secret.length - 4)
    (hgsel : Function.Injective gsel) (hgselb : ∀ i, gsel i < groups.length)
    (hmsel : ∀ i, Function.Injective (msel i))
    (hmselb : ∀ i k, msel i k < (groups.getD (gsel i) (1, 1)).2) :
    combineSelected ι ιi dgF rf gt secret.length groups
      (fun j k =>
        ((generate ι dgF rf gt groups secret gsalt grnd msalt mrnd).getD j []).getD k [])
      gsel msel = Except.ok secret := by
  have hemlen : ((feistelEncrypt rf secret).map ι).length = secret.length := by
    rw [List.length_map, feistelEncrypt_length rf hrf secret heven]
  have hmemg : ∀ i : Fin gt, groups.getD (gsel i) (1, 1) ∈ groups := by
    intro i
    rw [List.getD_eq_getElem?_getD, List.getElem?_eq_getElem (hgselb i)]
    simp [List.getElem_mem]
  have hgv : ∀ i : Fin gt,
      selectedGroupValue ι dgF secret.length groups
        (fun j k =>
          ((generate ι dgF rf gt groups secret gsalt grnd msalt mrnd).getD j []).getD k [])
        gt gsel msel i =
      Except.ok (splitValue ι gt secret.length ((feistelEncrypt rf secret).map ι)
        (dgF ((feistelEncrypt rf secret).map ι) gsalt ++ gsalt) grnd (gsel i)) := by
    intro i
    have hmt1 : 1 ≤ (groups.getD (gsel i) (1, 1)).1 := (hgroups _ (hmemg i)).1
    have hmt16 : (groups.getD (gsel i) (1, 1)).1 ≤ 16 :=
      le_trans (hgroups _ (hmemg i)).2.1 (hgroups _ (hmemg i)).2.2.1
    have hflen : (splitValue ι gt secret.length ((feistelEncrypt rf secret).map ι)
        (dgF ((feistelEncrypt rf secret).map ι) gsalt ++ gsalt) grnd (gsel i)).length =
        secret.length := by
      simp [splitValue]
    have harg : (fun k : Fin (groups.getD (gsel i) (1, 1)).1 =>
        ((msel i k : ℕ),
          ((generate ι dgF rf gt groups secret gsalt grnd msalt mrnd).getD (gsel i) []).getD
            (msel i k) [])) =
        fun k => ((msel i k : ℕ),
          splitValue ι (groups.getD (gsel i) (1, 1)).1 secret.length
            (splitValue ι gt secret.length ((feistelEncrypt rf secret).map ι)
              (dgF ((feistelEncrypt rf secret).map ι) gsalt ++ gsalt) grnd (gsel i))
            (dgF (splitValue ι gt secret.length ((feistelEncrypt rf secret).map ι)
              (dgF ((feistelEncrypt rf secret).map ι) gsalt ++ gsalt) grnd (gsel i))
              (msalt (gsel i)) ++ msalt (gsel i))
            (mrnd (gsel i)) (msel i k)) := by
      funext k
      congr 1
      exact generate_getD ι dgF rf gt groups secret gsalt grnd msalt mrnd
        (gsel i) (msel i k) (hgselb i) (hmselb i k)
    show recombineValue ι dgF (groups.getD (gsel i) (1, 1)).1 secret.length
        (fun k => ((msel i k : ℕ),
          ((generate ι dgF rf gt groups secret gsalt grnd msalt mrnd).getD (gsel i) []).getD
            (msel i k) [])) =
      Except.ok (splitValue ι gt secret.length ((feistelEncrypt rf secret).map ι)
        (dgF ((feistelEncrypt rf secret).map ι) gsalt ++ gsalt) grnd (gsel i))
    rw [harg]
    exact recombineValue_splitValue ι dgF (groups.getD (gsel i) (1, 1)).1 secret.length
      (splitValue ι gt secret.length ((feistelEncrypt rf secret).map ι)
        (dgF ((feistelEncrypt rf secret).map ι) gsalt ++ gsalt) grnd (gsel i))
      (msalt (gsel i)) (mrnd (gsel i)) hι hmt1 hmt16 hL4 hflen (hmsalt (gsel i)) hdg
      (msel i) (hmsel i)
      (fun k => lt_of_lt_of_le (hmselb i k) (hgroups _ (hmemg i)).2.2.1)
  have hok : ∀ i : Fin gt,
      (selectedGroupValue ι dgF secret.length groups
        (fun j k =>
          ((generate ι dgF rf gt groups secret gsalt grnd msalt mrnd).getD j []).getD k [])
        gt gsel msel i).isOk = true := by
    intro i
    rw [hgv i]
    rfl
  unfold combineSelected
  rw [dif_pos hok]
  have hfun2 : (fun i : Fin gt => ((gsel i : ℕ),
      (selectedGroupValue ι dgF secret.length groups
        (fun j k =>
          ((generate ι dgF rf gt groups secret gsalt grnd msalt mrnd).getD j []).getD k [])
        gt gsel msel i).toOption.getD [])) =
      fun i => ((gsel i : ℕ),
        splitValue ι gt secret.length ((feistelEncrypt rf secret).map ι)
          (dgF ((feistelEncrypt rf secret).map ι) gsalt ++ gsalt) grnd (gsel i)) := by
    funext i
    rw [hgv i]
    rfl
  rw [hfun2]
  rw [recombineValue_splitValue ι dgF gt secret.length ((feistelEncrypt rf secret).map ι)
    gsalt grnd hι hgt1 (le_trans hgtle hgc16) hL4 hemlen hgsalt hdg gsel hgsel
    (fun i => lt_of_lt_of_le (hgselb i) hgc16)]
  have hback : ((feistelEncrypt rf secret).map ι).map ιi = feistelEncrypt rf secret := by
    rw [List.map_map]
    have hp : ∀ x ∈ feistelEncrypt rf secret, (ιi ∘ ι) x = x :=
      fun x hx => hιi x (feistelEncrypt_bytes rf hrfb secret hsec x hx)
    rw [List.map_congr_left hp, List.map_id']
  show Except.ok (feistelDecrypt rf (((feistelEncrypt rf secret).map ι).map ιi)) =
    Except.ok secret
  rw [hback, feistelDecrypt_encrypt rf hrf secret heven]

end EngineProofs

/-- Witness for C1 over the prime field with 257 elements (in which the
byte indices embed injectively): the scheme `group_threshold 1`, one
`(1, 1)` group, the 4-byte secret `[1, 2, 3, 4]`, a concrete
length-preserving round function and a constant digest round-trip to the
original secret. -/
theorem generate_combine_roundtrip_witness :
    (([1, 2, 3, 4] : List ℕ).length % 2 = 0 ∧ 4 ≤ ([1, 2, 3, 4] : List ℕ).length) ∧
    combineSelected (fun n => (n : ZMod 257)) ZMod.val
      (fun _ _ => ([0, 0, 0, 0] : List (ZMod 257)))
      (fun _ x => x.map (fun b => b % 256)) 1 ([1, 2, 3, 4] : List ℕ).length [(1, 1)]
      (fun j k => ((generate (fun n => (n : ZMod 257))
          (fun _ _ => ([0, 0, 0, 0] : List (ZMod 257)))
          (fun _ x => x.map (fun b => b % 256)) 1 [(1, 1)] [1, 2, 3, 4]
          [] (fun _ => []) (fun _ => []) (fun _ _ => [])).getD j []).getD k [])
      (fun _ => 0) (fun _ _ => 0) = Except.ok [1, 2, 3, 4] := by
  refine ⟨⟨rfl, by decide⟩, ?_⟩
  refine generate_combine_roundtrip (fun n => (n : ZMod 257)) ZMod.val
    (fun _ _ => ([0, 0, 0, 0] : List (ZMod 257))) (fun _ x => x.map (fun b => b % 256))
    1 [(1, 1)] [1, 2, 3, 4] [] (fun _ => []) (fun _ => []) (fun _ _ => [])
    (fun _ => 0) (fun _ _ => 0) ?_ ?_ (by decide) rfl (by decide) ?_ ?_ (fun _ _ => rfl)
    (by decide) (by decide) (by decide) (by decide) rfl (fun _ => rfl) ?_
    (fun _ => Nat.one_pos) (by decide) (by decide)
  · intro a b ha hb h
    have h2 := congrArg ZMod.val h
    rwa [ZMod.val_cast_of_lt (by omega), ZMod.val_cast_of_lt (by omega)] at h2
  · intro b hb
    exact ZMod.val_cast_of_lt (by omega)
  · intro i x
    simp
  · intro i x hx b hb
    simp only [List.mem_map] at hb
    obtain ⟨a, _, rfl⟩ := hb
    omega
  · intro a b h
    exact Subsingleton.elim a b

end ShamirRu
